import Mathlib

/-!
# Verification of the OmniC graph engine (`src/include/omnic/graph.h`)

This file gives a shallow embedding of the graph engine of the OmniC
repository and proves (or refutes) the specification claims about it.

Modelling conventions:
* `double` edge weights are modelled as `ℚ`.  The code only ever compares
  weights for equality with the sentinel `0.0` ("no edge") and copies them
  around, so exact rational arithmetic is a faithful model of every code
  path exercised here (including the hybrid-mode density computation
  `num_edges / num_vertices²`, whose operands are small integers in all
  concrete instances below).
* `size_t` counters are modelled as `Nat`; `num_edges--` becomes truncated
  subtraction.  No theorem in this file exercises an underflowing decrement.
* The C `struct oc_graph` keeps a tag `repr_type` next to a `union` of the
  two storage blobs; the tag and the union are merged into the sum type
  `ReprData` (exactly one representation is active at a time, which is the
  invariant the C code maintains).  `repr_type == OC_GRAPH_REPR_HYBRID`
  never occurs on a live graph (`oc_graph_init` maps HYBRID to ADJ_LIST and
  records hybridness in `density_threshold > 0`), which is also what
  `_oc_graph_check_hybrid_conversion` assumes.
* The flattened matrix `double*` is a `List ℚ`; reads are `List.getD` with
  default `0` and writes are `List.set`.  For the in-bounds accesses the
  code performs these coincide with C array accesses.
* Allocation is assumed to succeed in the base model.  For the claims about
  allocation failure there is a second, oracle-parameterised model of the
  conversion routines (`convertToMatrixAlloc`, `convertToListAlloc`) in
  which every `malloc`/`calloc` consults an explicit oracle.
* Functions returning results through pointers (`double* weight_out`) return
  `Option` values; `NULL`-graph guards are dropped (the model has no NULL).
* The leading underscore of internal helpers (`_oc_graph_*`) is dropped.
-/

set_option maxHeartbeats 1000000

namespace OmniC

/-- C edge weights (`double`). -/
abbrev Weight := ℚ

/-- `oc_graph_edge_t`: one adjacency-list record (`to`, `weight`); the
`next` pointer chain becomes the containing `List`. -/
structure GraphEdge where
  dst : Nat
  weight : Weight
deriving DecidableEq

/-- `oc_graph_adj_list_t`: per-vertex adjacency lists plus the allocated
slot count `capacity`. -/
structure AdjList where
  lists : List (List GraphEdge)
  capacity : Nat
deriving DecidableEq

/-- `oc_graph_adj_matrix_t`: flattened weight table
(`matrix[i * capacity + j]`) plus the allocated dimension `capacity`. -/
structure AdjMatrix where
  matrix : List Weight
  capacity : Nat
deriving DecidableEq

/-- The active representation: the C `repr_type` tag together with the
`union { matrix; list; }` payload. -/
inductive ReprData where
  | matrix (m : AdjMatrix)
  | list (l : AdjList)
deriving DecidableEq

/-- `oc_graph_repr_t` as passed to `oc_graph_init`. -/
inductive GraphReprT where
  | adj_matrix
  | adj_list
  | hybrid
deriving DecidableEq

/-- `struct oc_graph`. -/
structure Graph where
  num_vertices : Nat
  num_edges : Nat
  directed : Bool
  repr : ReprData
  density_threshold : ℚ
deriving DecidableEq

/-- Placeholder used to unwrap `oc_graph_init`'s `Option` at concrete
inputs (never reached for a nonzero vertex count). -/
def dummyGraph : Graph :=
  { num_vertices := 0, num_edges := 0, directed := false,
    repr := .list ⟨[], 0⟩, density_threshold := -1 }

/-! ## Raw storage access -/

/-- Read `matrix[idx]` (in-bounds in every code path modelled). -/
def matIdxGet (m : AdjMatrix) (idx : Nat) : Weight :=
  m.matrix.getD idx 0

/-- Write `matrix[idx] = w`. -/
def matIdxSet (m : AdjMatrix) (idx : Nat) (w : Weight) : AdjMatrix :=
  { m with matrix := m.matrix.set idx w }

/-- Read `matrix[i * capacity + j]`. -/
def matGet (m : AdjMatrix) (i j : Nat) : Weight :=
  matIdxGet m (i * m.capacity + j)

/-- Write `matrix[i * capacity + j] = w`. -/
def matSet (m : AdjMatrix) (i j : Nat) (w : Weight) : AdjMatrix :=
  matIdxSet m (i * m.capacity + j) w

/-- Read the adjacency list of vertex `i` (`lists[i]`; slots beyond the
stored prefix are `NULL`, i.e. `[]`). -/
def AdjList.get (l : AdjList) (i : Nat) : List GraphEdge :=
  l.lists.getD i []

/-- Write `lists[i] = es`. -/
def AdjList.set (l : AdjList) (i : Nat) (es : List GraphEdge) : AdjList :=
  { l with lists := l.lists.set i es }

/-! ## Internal helpers (`graph.h` lines 216-463) -/

/-- `_oc_graph_init_matrix`: `calloc` an `n × n` zero table,
`capacity = num_vertices`. -/
def oc_graph_init_matrix (n : Nat) : AdjMatrix :=
  ⟨List.replicate (n * n) 0, n⟩

/-- `_oc_graph_init_list`: `calloc` `num_vertices` empty (NULL) slots. -/
def oc_graph_init_list (n : Nat) : AdjList :=
  ⟨List.replicate n [], n⟩

/-- The `while (edge) { if (edge->to == to) ... }` scan of
`_oc_graph_find_edge_list`. -/
def findEdgeRec (es : List GraphEdge) (dst : Nat) : Bool :=
  match es with
  | [] => false
  | e :: rest => if e.dst = dst then true else findEdgeRec rest dst

/-- The scan of `_oc_graph_get_weight_list` (result via `weight_out`). -/
def getWeightRec (es : List GraphEdge) (dst : Nat) : Option Weight :=
  match es with
  | [] => none
  | e :: rest => if e.dst = dst then some e.weight else getWeightRec rest dst

/-- The update-in-place branch of `_oc_graph_insert_edge_list`: set the
weight of the first record with the given target. -/
def updateWeightRec (es : List GraphEdge) (dst : Nat) (w : Weight) : List GraphEdge :=
  match es with
  | [] => []
  | e :: rest =>
    if e.dst = dst then { e with weight := w } :: rest
    else e :: updateWeightRec rest dst w

/-- The `while (*ptr)` removal scan of `_oc_graph_rm_edge_list`: drop the
first record with the given target (`break` afterwards); also reports
whether one was found. -/
def removeEdgeRec (es : List GraphEdge) (dst : Nat) : List GraphEdge × Bool :=
  match es with
  | [] => ([], false)
  | e :: rest =>
    if e.dst = dst then (rest, true)
    else
      let r := removeEdgeRec rest dst
      (e :: r.1, r.2)

/-- `_oc_graph_find_edge_matrix` (lines 263-270). -/
def oc_graph_find_edge_matrix (g : Graph) (fr dst : Nat) : Bool :=
  match g.repr with
  | .list _ => false   -- never called with the list union member active
  | .matrix m =>
    if g.num_vertices ≤ fr ∨ g.num_vertices ≤ dst then false
    else decide (matGet m fr dst ≠ 0)

/-- `_oc_graph_find_edge_list` (lines 273-286). -/
def oc_graph_find_edge_list (g : Graph) (fr dst : Nat) : Bool :=
  match g.repr with
  | .matrix _ => false   -- never called with the matrix union member active
  | .list l =>
    if g.num_vertices ≤ fr ∨ g.num_vertices ≤ dst then false
    else findEdgeRec (l.get fr) dst

/-- `_oc_graph_get_weight_matrix` (lines 289-303). -/
def oc_graph_get_weight_matrix (g : Graph) (fr dst : Nat) : Option Weight :=
  match g.repr with
  | .list _ => none
  | .matrix m =>
    if g.num_vertices ≤ fr ∨ g.num_vertices ≤ dst then none
    else
      let weight := matGet m fr dst
      if weight = 0 then none else some weight

/-- `_oc_graph_get_weight_list` (lines 306-322). -/
def oc_graph_get_weight_list (g : Graph) (fr dst : Nat) : Option Weight :=
  match g.repr with
  | .matrix _ => none
  | .list l =>
    if g.num_vertices ≤ fr ∨ g.num_vertices ≤ dst then none
    else getWeightRec (l.get fr) dst

/-- `_oc_graph_insert_edge_matrix` (lines 325-348).  Returns the updated
graph and the C `int` result. -/
def oc_graph_insert_edge_matrix (g : Graph) (fr dst : Nat) (w : Weight) : Graph × Int :=
  match g.repr with
  | .list _ => (g, -1)
  | .matrix m =>
    if g.num_vertices ≤ fr ∨ g.num_vertices ≤ dst then (g, -1)
    else
      let edge_existed := matGet m fr dst ≠ 0
      let m1 := matSet m fr dst w
      let num_edges1 := if edge_existed then g.num_edges else g.num_edges + 1
      -- if (!g->directed) { if (matrix[rev_idx] == 0.0) matrix[rev_idx] = weight; }
      let m2 :=
        if g.directed = false ∧ matGet m1 dst fr = 0 then matSet m1 dst fr w else m1
      ({ g with repr := .matrix m2, num_edges := num_edges1 }, 0)

/-- `_oc_graph_insert_edge_list` (lines 351-398), allocation succeeding. -/
def oc_graph_insert_edge_list (g : Graph) (fr dst : Nat) (w : Weight) : Graph × Int :=
  match g.repr with
  | .matrix _ => (g, -1)
  | .list l =>
    if g.num_vertices ≤ fr ∨ g.num_vertices ≤ dst then (g, -1)
    else if findEdgeRec (l.get fr) dst then
      -- update existing edge weight, return 0 (no mirror update!)
      ({ g with repr := .list (l.set fr (updateWeightRec (l.get fr) dst w)) }, 0)
    else
      -- prepend new edge, then (undirected) prepend the reverse edge,
      -- reading lists[to] after the first prepend, exactly as the C does
      let l1 := l.set fr (⟨dst, w⟩ :: l.get fr)
      let l2 := if g.directed then l1 else l1.set dst (⟨fr, w⟩ :: l1.get dst)
      ({ g with repr := .list l2, num_edges := g.num_edges + 1 }, 0)

/-- `_oc_graph_rm_edge_matrix` (lines 401-423). -/
def oc_graph_rm_edge_matrix (g : Graph) (fr dst : Nat) : Graph × Bool :=
  match g.repr with
  | .list _ => (g, false)
  | .matrix m =>
    if g.num_vertices ≤ fr ∨ g.num_vertices ≤ dst then (g, false)
    else if matGet m fr dst = 0 then (g, false)
    else
      let m1 := matSet m fr dst 0
      let m2 :=
        if g.directed = false ∧ matGet m1 dst fr ≠ 0 then matSet m1 dst fr 0 else m1
      ({ g with repr := .matrix m2, num_edges := g.num_edges - 1 }, true)

/-- `_oc_graph_rm_edge_list` (lines 426-463). -/
def oc_graph_rm_edge_list (g : Graph) (fr dst : Nat) : Graph × Bool :=
  match g.repr with
  | .matrix _ => (g, false)
  | .list l =>
    if g.num_vertices ≤ fr ∨ g.num_vertices ≤ dst then (g, false)
    else
      let r := removeEdgeRec (l.get fr) dst
      if r.2 then
        let l1 := l.set fr r.1
        -- if (found && !g->directed) remove the reverse edge (no recount)
        let l2 := if g.directed then l1 else l1.set dst (removeEdgeRec (l1.get dst) fr).1
        ({ g with repr := .list l2, num_edges := g.num_edges - 1 }, true)
      else (g, false)

/-! ## Representation switching (`graph.h` lines 467-563) -/

/-- `_oc_graph_convert_to_matrix` (lines 467-501), allocation succeeding.
Note that, unlike `_oc_graph_convert_to_list`, it does **not** save and
restore `num_edges` around the edge transfer. -/
def oc_graph_convert_to_matrix (g : Graph) : Graph × Int :=
  match g.repr with
  | .matrix _ => (g, 0)
  | .list old_list =>
    let g0 := { g with repr := .matrix (oc_graph_init_matrix g.num_vertices) }
    -- for (i < num_vertices) for (edge in old_list.lists[i]) insert_edge_matrix
    let g1 := (List.range g.num_vertices).foldl
      (fun acc i =>
        (old_list.get i).foldl
          (fun acc2 e => (oc_graph_insert_edge_matrix acc2 i e.dst e.weight).1) acc)
      g0
    (g1, 0)

/-- `_oc_graph_convert_to_list` (lines 503-538), allocation succeeding. -/
def oc_graph_convert_to_list (g : Graph) : Graph × Int :=
  match g.repr with
  | .list _ => (g, 0)
  | .matrix old_matrix =>
    let old_edges := g.num_edges                       -- Preserve count
    let g0 := { g with repr := .list (oc_graph_init_list g.num_vertices),
                       num_edges := 0 }
    let g1 := (List.range g.num_vertices).foldl
      (fun acc i =>
        (List.range g.num_vertices).foldl
          (fun acc2 j =>
            if matGet old_matrix i j ≠ 0 then
              -- Only insert if i <= j or directed
              if acc2.directed = true ∨ i ≤ j then
                (oc_graph_insert_edge_list acc2 i j (matGet old_matrix i j)).1
              else acc2
            else acc2) acc)
      g0
    ({ g1 with num_edges := old_edges }, 0)            -- Restore exact edge count

/-- `_oc_graph_check_hybrid_conversion` (lines 540-563). -/
def oc_graph_check_hybrid_conversion (g : Graph) : Graph :=
  -- repr_type is never HYBRID on a live graph, so the first early return
  -- of the C function never fires
  if g.density_threshold ≤ 0 then g
  else
    let max_edges : ℚ := ((g.num_vertices * g.num_vertices : Nat) : ℚ)
    if max_edges = 0 then g
    else
      let density : ℚ := (g.num_edges : ℚ) / max_edges
      match g.repr with
      | .list _ =>
        if density > g.density_threshold then (oc_graph_convert_to_matrix g).1 else g
      | .matrix _ =>
        -- Hysteresis: switch back only if significantly below threshold
        if density < g.density_threshold * (3 / 4) then (oc_graph_convert_to_list g).1 else g

/-! ## Public API (`graph.h` lines 569-800) -/

/-- `oc_graph_init` (lines 569-606), allocation succeeding;
`none` models the `NULL` return for `num_vertices == 0`. -/
def oc_graph_init (num_vertices : Nat) (directed : Bool)
    (repr_type : GraphReprT) : Option Graph :=
  if num_vertices = 0 then none
  else
    let density_threshold : ℚ := if repr_type = .hybrid then 1 / 4 else -1
    -- hybrid starts with a list; otherwise use the requested representation
    let repr : ReprData :=
      if repr_type = .adj_matrix then .matrix (oc_graph_init_matrix num_vertices)
      else .list (oc_graph_init_list num_vertices)
    some { num_vertices, num_edges := 0, directed, repr, density_threshold }

/-- `oc_graph_find_edge` (lines 620-628). -/
def oc_graph_find_edge (g : Graph) (fr dst : Nat) : Bool :=
  match g.repr with
  | .matrix _ => oc_graph_find_edge_matrix g fr dst
  | .list _ => oc_graph_find_edge_list g fr dst

/-- `oc_graph_get_edge_weight` (lines 630-639). -/
def oc_graph_get_edge_weight (g : Graph) (fr dst : Nat) : Option Weight :=
  match g.repr with
  | .matrix _ => oc_graph_get_weight_matrix g fr dst
  | .list _ => oc_graph_get_weight_list g fr dst

/-- `oc_graph_insert_edge` (lines 641-656). -/
def oc_graph_insert_edge (g : Graph) (fr dst : Nat) (w : Weight) : Graph × Int :=
  let r := match g.repr with
    | .matrix _ => oc_graph_insert_edge_matrix g fr dst w
    | .list _ => oc_graph_insert_edge_list g fr dst w
  if r.2 = 0 ∧ r.1.density_threshold > 0 then
    (oc_graph_check_hybrid_conversion r.1, r.2)
  else r

/-- `oc_graph_rm_edge` (lines 658-673). -/
def oc_graph_rm_edge (g : Graph) (fr dst : Nat) : Graph × Bool :=
  let r := match g.repr with
    | .matrix _ => oc_graph_rm_edge_matrix g fr dst
    | .list _ => oc_graph_rm_edge_list g fr dst
  if r.2 = true ∧ r.1.density_threshold > 0 then
    (oc_graph_check_hybrid_conversion r.1, r.2)
  else r

/-- `oc_graph_num_edges` (lines 193-195). -/
def oc_graph_num_edges (g : Graph) : Nat := g.num_edges

/-- `oc_graph_num_vertices` (lines 186-188). -/
def oc_graph_num_vertices (g : Graph) : Nat := g.num_vertices

/-- `_oc_graph_resize_matrix_add` (lines 676-693): `calloc` a
`(n+1) × (n+1)` table and `memcpy` the old rows — with source stride
`old_n = num_vertices`, **not** the actual row stride `capacity`. -/
def oc_graph_resize_matrix_add (g : Graph) (m : AdjMatrix) : AdjMatrix :=
  let old_n := g.num_vertices
  let new_n := old_n + 1
  let base := List.replicate (new_n * new_n) (0 : Weight)
  -- memcpy(&new_mat[i * new_n], &matrix[i * old_n], old_n * sizeof(double))
  let mat := (List.range old_n).foldl
    (fun acc i =>
      (List.range old_n).foldl
        (fun acc2 k => acc2.set (i * new_n + k) (m.matrix.getD (i * old_n + k) 0))
        acc)
    base
  ⟨mat, new_n⟩

/-- `oc_graph_insert_vertex` (lines 695-714), allocation succeeding.
Returns the updated graph and the new index. -/
def oc_graph_insert_vertex (g : Graph) : Graph × Option Nat :=
  match g.repr with
  | .matrix m =>
    ({ g with repr := .matrix (oc_graph_resize_matrix_add g m),
              num_vertices := g.num_vertices + 1 },
     some g.num_vertices)
  | .list l =>
    -- realloc to (num_vertices + 1) slots; the (possibly new) last slot is
    -- set to NULL; capacity becomes num_vertices + 1
    let n := g.num_vertices
    let kept := l.lists.take (n + 1)
    let grown := kept ++ List.replicate ((n + 1) - kept.length) []
    ({ g with repr := .list ⟨grown.set n [], n + 1⟩, num_vertices := n + 1 },
     some n)

/-- The per-record body of step 2 of the list branch of
`oc_graph_rm_vertex` (lines 763-783): drop records pointing to the removed
vertex (counting them), rename records pointing to `last`.  Returns the
processed list and the number of dropped records. -/
def rmVertexProcessRec (vertex last : Nat) (es : List GraphEdge) : List GraphEdge × Nat :=
  match es with
  | [] => ([], 0)
  | e :: rest =>
    let r := rmVertexProcessRec vertex last rest
    if e.dst = vertex then (r.1, r.2 + 1)
    else if e.dst = last ∧ vertex ≠ last then ({ e with dst := vertex } :: r.1, r.2)
    else (e :: r.1, r.2)

/-- One iteration `k` of the row/column swap loop of the matrix branch of
`oc_graph_rm_vertex` (lines 732-739): move `(last → k)` to `(vertex → k)`,
then `(k → last)` to `(k → vertex)` — two sequential read/write pairs. -/
def rmvMatStep (cap vertex last : Nat) (mm : AdjMatrix) (k : Nat) : AdjMatrix :=
  let mm1 := matIdxSet mm (vertex * cap + k) (matIdxGet mm (last * cap + k))
  matIdxSet mm1 (k * cap + vertex) (matIdxGet mm1 (k * cap + last))

/-- One iteration `i` of step 2 of the list branch of `oc_graph_rm_vertex`
(lines 763-783): skip the removed vertex's own (freed) slot, process every
other list, decrementing the running edge count per dropped record. -/
def rmvStep2 (vertex last : Nat) (p : AdjList × Nat) (i : Nat) : AdjList × Nat :=
  if i = vertex then p
  else
    let r := rmVertexProcessRec vertex last (p.1.get i)
    (p.1.set i r.1, p.2 - r.2)

/-- `oc_graph_rm_vertex` (lines 716-800). -/
def oc_graph_rm_vertex (g : Graph) (vertex : Nat) : Graph × Bool :=
  if g.num_vertices ≤ vertex then (g, false)
  else
    let last := g.num_vertices - 1
    match g.repr with
    | .matrix m =>
      -- swap vertex with last (sequential row/column copies), then shrink;
      -- num_edges is left untouched by this branch, as in the C code
      let m' :=
        if vertex ≠ last then
          let m1 := (List.range g.num_vertices).foldl
            (rmvMatStep m.capacity vertex last) m
          matIdxSet m1 (vertex * m.capacity + vertex)
            (matIdxGet m1 (last * m.capacity + last))
        else m
      ({ g with repr := .matrix m', num_vertices := g.num_vertices - 1 }, true)
    | .list l =>
      -- step 1: free lists[vertex], decrementing num_edges per record
      let ne1 := (l.get vertex).foldl (fun n _ => n - 1) g.num_edges
      -- step 2: process every other list (drop edges to `vertex`, rename
      -- edges to `last`), decrementing num_edges per dropped record
      let step2 := (List.range g.num_vertices).foldl (rmvStep2 vertex last) (l, ne1)
      -- step 3: move the last list into slot `vertex`, clear slot `last`
      let l3 := if vertex ≠ last then step2.1.set vertex (step2.1.get last) else step2.1
      let l4 := l3.set last []
      ({ g with repr := .list l4, num_vertices := g.num_vertices - 1,
                num_edges := step2.2 }, true)

/-! ## Traversal (`graph.h` lines 806-892) -/

/-- The neighbour iteration order of `_dfs_recursive` / `oc_graph_bfs`:
list order for the list representation, ascending index over nonzero cells
for the matrix. -/
def neighborsOf (g : Graph) (u : Nat) : List Nat :=
  match g.repr with
  | .list l => (l.get u).map GraphEdge.dst
  | .matrix m =>
    (List.range g.num_vertices).filter (fun i => decide (matGet m u i ≠ 0))

/-- `_dfs_recursive` (lines 806-828): mark-and-visit `u`, then recurse into
unvisited neighbours.  The visited array and the visitor-call sequence
coincide in the C code (both updated together), so a single list serves as
both; `fuel` bounds the recursion depth (`num_vertices` suffices, see
`C9`'s proof). -/
def dfsRec (g : Graph) : Nat → Nat → List Nat → List Nat
  | 0, _, order => order
  | fuel + 1, u, order =>
    (neighborsOf g u).foldl
      (fun acc v => if v ∈ acc then acc else dfsRec g fuel v acc)
      (order ++ [u])

/-- `oc_graph_dfs` (lines 830-842): the sequence of visitor calls. -/
def oc_graph_dfs (g : Graph) (start : Nat) : List Nat :=
  if g.num_vertices ≤ start then [] else dfsRec g g.num_vertices start []

/-- The neighbour-marking scan of one `oc_graph_bfs` loop iteration:
for each unvisited neighbour, mark it and enqueue it. -/
def bfsMark (g : Graph) (u : Nat) (vis queue : List Nat) : List Nat × List Nat :=
  (neighborsOf g u).foldl
    (fun p v => if v ∈ p.1 then p else (p.1 ++ [v], p.2 ++ [v]))
    (vis, queue)

/-- The `while (q_head != q_tail)` loop of `oc_graph_bfs`: dequeue, visit,
mark-and-enqueue neighbours.  `fuel = num_vertices` suffices because each
iteration dequeues one marked vertex and vertices are marked at most
once. -/
def bfsLoop (g : Graph) : Nat → List Nat → List Nat → List Nat → List Nat
  | 0, _, _, order => order
  | _ + 1, [], _, order => order
  | fuel + 1, u :: rest, vis, order =>
    let p := bfsMark g u vis rest
    bfsLoop g fuel p.2 p.1 (order ++ [u])

/-- `oc_graph_bfs` (lines 844-892): the sequence of visitor calls. -/
def oc_graph_bfs (g : Graph) (start : Nat) : List Nat :=
  if g.num_vertices ≤ start then []
  else bfsLoop g g.num_vertices [start] [start] []

/-! ## Allocation-explicit model of the conversion routines

For the claims about allocation failure, `alloc k` reports whether the
`k`-th `malloc`/`calloc` performed by the operation succeeds.  Every
function returns the next allocation counter.  With `alloc = fun _ =>
true` these reduce to the base model above. -/

/-- `_oc_graph_insert_edge_list` with explicit allocation: one `malloc`
for the forward record and, for an undirected graph, one for the mirror
record (whose failure unlinks and frees the forward record again). -/
def insertEdgeListAlloc (alloc : Nat → Bool) (g : Graph) (fr dst : Nat) (w : Weight)
    (ctr : Nat) : Graph × Int × Nat :=
  match g.repr with
  | .matrix _ => (g, -1, ctr)
  | .list l =>
    if g.num_vertices ≤ fr ∨ g.num_vertices ≤ dst then (g, -1, ctr)
    else if findEdgeRec (l.get fr) dst then
      ({ g with repr := .list (l.set fr (updateWeightRec (l.get fr) dst w)) }, 0, ctr)
    else if alloc ctr = false then (g, -1, ctr + 1)       -- malloc(new_edge) failed
    else
      let l1 := l.set fr (⟨dst, w⟩ :: l.get fr)
      if g.directed then
        ({ g with repr := .list l1, num_edges := g.num_edges + 1 }, 0, ctr + 1)
      else if alloc (ctr + 1) = false then (g, -1, ctr + 2) -- malloc(rev_edge) failed: forward edge rolled back
      else
        let l2 := l1.set dst (⟨fr, w⟩ :: l1.get dst)
        ({ g with repr := .list l2, num_edges := g.num_edges + 1 }, 0, ctr + 2)

/-- `_oc_graph_convert_to_matrix` with explicit allocation: the single
`calloc` of the matrix table; on failure the saved list is put back and
the call fails.  The transfer loop performs no allocation. -/
def convertToMatrixAlloc (alloc : Nat → Bool) (g : Graph) (ctr : Nat) : Graph × Int × Nat :=
  match g.repr with
  | .matrix _ => (g, 0, ctr)
  | .list old_list =>
    if alloc ctr = false then (g, -1, ctr + 1)
    else
      let g0 := { g with repr := .matrix (oc_graph_init_matrix g.num_vertices) }
      let g1 := (List.range g.num_vertices).foldl
        (fun acc i =>
          (old_list.get i).foldl
            (fun acc2 e => (oc_graph_insert_edge_matrix acc2 i e.dst e.weight).1) acc)
        g0
      (g1, 0, ctr + 1)

/-- `_oc_graph_convert_to_list` with explicit allocation: the `calloc` of
the slot array (failure reverts), then one or two `malloc`s per
transferred edge inside `_oc_graph_insert_edge_list` — whose `int` result
the C transfer loop discards. -/
def convertToListAlloc (alloc : Nat → Bool) (g : Graph) (ctr : Nat) : Graph × Int × Nat :=
  match g.repr with
  | .list _ => (g, 0, ctr)
  | .matrix old_matrix =>
    if alloc ctr = false then (g, -1, ctr + 1)
    else
      let old_edges := g.num_edges
      let g0 := { g with repr := .list (oc_graph_init_list g.num_vertices),
                         num_edges := 0 }
      let r := (List.range g.num_vertices).foldl
        (fun acc i =>
          (List.range g.num_vertices).foldl
            (fun (acc2 : Graph × Nat) j =>
              if matGet old_matrix i j ≠ 0 then
                if acc2.1.directed = true ∨ i ≤ j then
                  let t := insertEdgeListAlloc alloc acc2.1 i j (matGet old_matrix i j) acc2.2
                  (t.1, t.2.2)     -- the insert's result is discarded, as in the C
                else acc2
              else acc2) acc)
        (g0, ctr + 1)
      ({ r.1 with num_edges := old_edges }, 0, r.2)

/-! ## Structural well-formedness

What the C code's raw array accesses rely on: the backing storage is at
least as large as `num_vertices` says.  Every graph the API constructs
satisfies this. -/

/-- Storage large enough for the current vertex count. -/
def GraphWF (g : Graph) : Prop :=
  match g.repr with
  | .matrix m => g.num_vertices ≤ m.capacity ∧ m.matrix.length = m.capacity * m.capacity
  | .list l => g.num_vertices ≤ l.lists.length

instance (g : Graph) : Decidable (GraphWF g) :=
  match g with
  | ⟨n, _, _, .matrix m, _⟩ =>
    inferInstanceAs (Decidable (n ≤ m.capacity ∧ m.matrix.length = m.capacity * m.capacity))
  | ⟨n, _, _, .list l, _⟩ => inferInstanceAs (Decidable (n ≤ l.lists.length))

/-- Every stored adjacency target is a live vertex (what the traversal
code relies on when indexing its `visited` array). -/
def TargetsOk (g : Graph) : Prop :=
  ∀ u < g.num_vertices, ∀ v ∈ neighborsOf g u, v < g.num_vertices

/-- The weight of the edge `u → v` as the list representation reports it
(`0` when absent). -/
def wOfList (l : AdjList) (u v : Nat) : Weight :=
  (getWeightRec (l.get u) v).getD 0

/-- The data-model invariants of the list representation (spec §3): live
targets, no zero "present" weights, duplicate records agree with the
first-found weight, and mirrored records with equal weight for an
undirected graph. -/
def ListReprWF (g : Graph) (l : AdjList) : Prop :=
  (∀ i < g.num_vertices, ∀ e ∈ l.get i,
      e.dst < g.num_vertices ∧ e.weight ≠ 0 ∧ e.weight = wOfList l i e.dst) ∧
  (g.directed = false → ∀ i < g.num_vertices, ∀ e ∈ l.get i,
      ∃ e' ∈ l.get e.dst, e'.dst = i ∧ e'.weight = e.weight)

/-- The data-model invariant of the matrix representation of an
undirected graph: the live block is symmetric. -/
def MatrixSymm (g : Graph) (m : AdjMatrix) : Prop :=
  g.directed = false →
    ∀ i < g.num_vertices, ∀ j < g.num_vertices, matGet m i j = matGet m j i

/-! ## Conversion transfer streams

The nested transfer loops of the conversion routines, flattened to a fold
over one stream of work items; used to state their loop invariants. -/

/-- The record stream of `_oc_graph_convert_to_matrix`'s transfer loop:
every `(i, edge)` with `i < n`, in iteration order. -/
def pairsOf (n : Nat) (l : AdjList) : List (Nat × GraphEdge) :=
  (List.range n).flatMap (fun i => (l.get i).map (fun e => (i, e)))

/-- The cell stream of `_oc_graph_convert_to_list`'s transfer loop. -/
def cellPairs (n : Nat) : List (Nat × Nat) :=
  (List.range n).flatMap (fun i => (List.range n).map (fun j => (i, j)))

/-- After the List→Matrix transfer has processed the records `P`, the
cell `(u,v)` has been written: either directly by a record `u → v`, or
(undirected) by the mirror write of a record `v → u`. -/
def matTransferActivated (dir : Bool) (P : List (Nat × GraphEdge)) (u v : Nat) : Prop :=
  (∃ p ∈ P, p.1 = u ∧ p.2.dst = v) ∨ (dir = false ∧ ∃ p ∈ P, p.1 = v ∧ p.2.dst = u)

/-- The Matrix→List transfer inserts cell `(i,j)`: it is nonzero and
(undirected) in the upper triangle. -/
def listTransferCond (dir : Bool) (m : AdjMatrix) (p : Nat × Nat) : Prop :=
  matGet m p.1 p.2 ≠ 0 ∧ (dir = true ∨ p.1 ≤ p.2)

/-- After the Matrix→List transfer has processed the cells `P`, the list
record `u → v` exists: inserted directly for cell `(u,v)`, or (undirected)
as the mirror record of cell `(v,u)`. -/
def listTransferActivated (dir : Bool) (m : AdjMatrix) (P : List (Nat × Nat)) (u v : Nat) : Prop :=
  ∃ p ∈ P, listTransferCond dir m p ∧ (p = (u, v) ∨ (dir = false ∧ p = (v, u)))

/-! ## Reachability

The neighbour relation of the active representation, and its reflexive
transitive closure: `v` is reachable from `u`. -/

/-- One-step adjacency as the active representation stores it. -/
def adjRel (g : Graph) (u v : Nat) : Prop :=
  v ∈ neighborsOf g u

/-- Reachability along stored edges. -/
def GraphReach (g : Graph) (u v : Nat) : Prop :=
  Relation.ReflTransGen (adjRel g) u v

/-! ## Concrete graphs for the refutations and witnesses -/

/-- Directed 2-vertex list graph holding edges `(0,1,1)` and `(1,0,1)` —
the state on which the hybrid trigger `density = 2/4 > 0.25` fires a
List→Matrix conversion. -/
def gC1pre : Graph :=
  (oc_graph_insert_edge
    ((oc_graph_insert_edge ((oc_graph_init 2 true .adj_list).getD dummyGraph) 0 1 1).1)
    1 0 1).1

/-- Undirected 4-vertex list graph with edges `(0,1)` and `(2,3)`. -/
def gC2pre : Graph :=
  (oc_graph_insert_edge
    ((oc_graph_insert_edge ((oc_graph_init 4 false .adj_list).getD dummyGraph) 0 1 1).1)
    2 3 1).1

/-- Undirected 2-vertex list graph: insert `(0,1,1)`, then update the same
edge to weight `2`. -/
def gC3list : Graph :=
  (oc_graph_insert_edge
    ((oc_graph_insert_edge ((oc_graph_init 2 false .adj_list).getD dummyGraph) 0 1 1).1)
    0 1 2).1

/-- The same two inserts on an undirected 2-vertex matrix graph. -/
def gC3mat : Graph :=
  (oc_graph_insert_edge
    ((oc_graph_insert_edge ((oc_graph_init 2 false .adj_matrix).getD dummyGraph) 0 1 1).1)
    0 1 2).1

/-- Directed 3-vertex matrix graph with the single edge `(1,0,7)`. -/
def gC5a : Graph :=
  (oc_graph_insert_edge ((oc_graph_init 3 true .adj_matrix).getD dummyGraph) 1 0 7).1

/-- `gC5a` after removing the last vertex: 2 live vertices, capacity 3. -/
def gC5b : Graph := (oc_graph_rm_vertex gC5a 2).1

/-- `gC5b` after `oc_graph_insert_vertex`. -/
def gC5c : Graph := (oc_graph_insert_vertex gC5b).1

/-- Directed 2-vertex matrix graph with the single edge `(0,1,5)`. -/
def gC7mat : Graph :=
  (oc_graph_insert_edge ((oc_graph_init 2 true .adj_matrix).getD dummyGraph) 0 1 5).1

/-- Allocation oracle whose first allocation succeeds and whose second
fails: the slot array of a Matrix→List conversion is obtained, the first
edge record is not. -/
def secondAllocFails : Nat → Bool := fun k => decide (k = 0)

/-- Allocation oracle that always fails. -/
def allocAlwaysFails : Nat → Bool := fun _ => false

/-- Fresh 2-vertex graphs for the witnesses. -/
def gList2 : Graph := (oc_graph_init 2 false .adj_list).getD dummyGraph

/-- Fresh undirected 2-vertex matrix graph. -/
def gMat2 : Graph := (oc_graph_init 2 false .adj_matrix).getD dummyGraph

/-- Directed 4-vertex list graph with edges `0→1`, `1→2`, `3→0` (used by
the traversal witness: `{0,1,2}` is the component reachable from `0`). -/
def gC9w : Graph :=
  (oc_graph_insert_edge
    ((oc_graph_insert_edge
      ((oc_graph_insert_edge ((oc_graph_init 4 true .adj_list).getD dummyGraph) 0 1 1).1)
      1 2 1).1)
    3 0 1).1

/-- Undirected 3-vertex list graph with edges `(0,1,5)` and `(1,2,7)`
(used by the conversion-fidelity witness). -/
def gC4w : Graph :=
  (oc_graph_insert_edge
    ((oc_graph_insert_edge ((oc_graph_init 3 false .adj_list).getD dummyGraph) 0 1 5).1)
    1 2 7).1

/-- Undirected 3-vertex matrix graph with edges `(0,1,5)` and `(1,2,7)`. -/
def gC4wm : Graph :=
  (oc_graph_insert_edge
    ((oc_graph_insert_edge ((oc_graph_init 3 false .adj_matrix).getD dummyGraph) 0 1 5).1)
    1 2 7).1

/-- Directed 4-vertex list graph with edges `0→1`, `2→3`, `3→2`, `1→3`
(used by the vertex-removal witness: removing vertex `1` relocates
vertex `3`). -/
def gC6w : Graph :=
  (oc_graph_insert_edge
    ((oc_graph_insert_edge
      ((oc_graph_insert_edge
        ((oc_graph_insert_edge ((oc_graph_init 4 true .adj_list).getD dummyGraph) 0 1 1).1)
        2 3 2).1)
      3 2 3).1)
    1 3 4).1

/-- The stored adjacency lists of `gC4w` (capacity 3). -/
def lC4w : AdjList := ⟨[[⟨1, 5⟩], [⟨2, 7⟩, ⟨0, 5⟩], [⟨1, 7⟩]], 3⟩

/-- The stored matrix of `gC4wm` (capacity 3). -/
def mC4wm : AdjMatrix := ⟨[0, 5, 0, 5, 0, 7, 0, 7, 0], 3⟩

instance (g : Graph) (l : AdjList) : Decidable (ListReprWF g l) :=
  inferInstanceAs (Decidable
    ((∀ i < g.num_vertices, ∀ e ∈ l.get i,
        e.dst < g.num_vertices ∧ e.weight ≠ 0 ∧ e.weight = wOfList l i e.dst) ∧
      (g.directed = false → ∀ i < g.num_vertices, ∀ e ∈ l.get i,
        ∃ e' ∈ l.get e.dst, e'.dst = i ∧ e'.weight = e.weight)))

instance (g : Graph) (m : AdjMatrix) : Decidable (MatrixSymm g m) :=
  inferInstanceAs (Decidable (g.directed = false →
    ∀ i < g.num_vertices, ∀ j < g.num_vertices, matGet m i j = matGet m j i))

/-- The specification of `_dfs_recursive` at a given recursion budget:
starting at a live unvisited `u` with visited set `A` and enough fuel,
the call extends the visit sequence, keeps it duplicate-free and in
range, visits only vertices reachable from `u` while avoiding `A`, and
leaves every neighbour of a newly visited vertex visited. -/
def DfsSpec (g : Graph) (fuel : Nat) : Prop :=
  ∀ (u : Nat) (A : List Nat),
    u < g.num_vertices → u ∉ A → A.Nodup → (∀ x ∈ A, x < g.num_vertices) →
    g.num_vertices ≤ fuel + A.length →
    (∃ F, dfsRec g fuel u A = (A ++ [u]) ++ F) ∧
    (dfsRec g fuel u A).Nodup ∧
    (∀ x ∈ dfsRec g fuel u A, x < g.num_vertices) ∧
    (∀ v ∈ dfsRec g fuel u A, v ∈ A ∨
      Relation.ReflTransGen (fun x y => adjRel g x y ∧ y ∉ A) u v) ∧
    (∀ x ∈ dfsRec g fuel u A, x ∉ A → ∀ y, adjRel g x y → y ∈ dfsRec g fuel u A)

instance (g : Graph) : Decidable (TargetsOk g) :=
  inferInstanceAs (Decidable
    (∀ u < g.num_vertices, ∀ v ∈ neighborsOf g u, v < g.num_vertices))

/-! ## Storage access lemmas -/

theorem getD_set_self {α : Type} (l : List α) (i : Nat) (w d : α) :
    (l.set i w).getD i d = if i < l.length then w else l.getD i d := by
  by_cases h : i < l.length
  · simp [List.getD, List.getElem?_set_self h, h]
  · simp [List.set_eq_of_length_le (Nat.le_of_not_lt h), h]

theorem getD_set_ne {α : Type} (l : List α) {i j : Nat} (h : i ≠ j) (w d : α) :
    (l.set i w).getD j d = l.getD j d := by
  simp [List.getD, List.getElem?_set_ne h]

theorem matIdxGet_set_self (m : AdjMatrix) (idx : Nat) (w : Weight) :
    matIdxGet (matIdxSet m idx w) idx
      = if idx < m.matrix.length then w else matIdxGet m idx := by
  show (m.matrix.set idx w).getD idx 0 = _
  rw [getD_set_self]
  rfl

theorem matIdxGet_set_ne (m : AdjMatrix) {idx idx' : Nat} (h : idx ≠ idx') (w : Weight) :
    matIdxGet (matIdxSet m idx w) idx' = matIdxGet m idx' := by
  show (m.matrix.set idx w).getD idx' 0 = _
  rw [getD_set_ne _ h]
  rfl

theorem capacity_matIdxSet (m : AdjMatrix) (idx : Nat) (w : Weight) :
    (matIdxSet m idx w).capacity = m.capacity := rfl

theorem length_matIdxSet (m : AdjMatrix) (idx : Nat) (w : Weight) :
    (matIdxSet m idx w).matrix.length = m.matrix.length := by
  simp [matIdxSet]

theorem flatIdx_inj {cap i j a b : Nat} (hj : j < cap) (hb : b < cap)
    (h : i * cap + j = a * cap + b) : i = a ∧ j = b := by
  have hjb : j = b := by
    have h1 : (cap * i + j) % cap = j % cap := Nat.mul_add_mod cap i j
    have h2 : (cap * a + b) % cap = b % cap := Nat.mul_add_mod cap a b
    rw [Nat.mul_comm cap i] at h1
    rw [Nat.mul_comm cap a] at h2
    rw [Nat.mod_eq_of_lt hj] at h1
    rw [Nat.mod_eq_of_lt hb] at h2
    rw [h, h2] at h1
    exact h1.symm
  subst hjb
  refine ⟨?_, rfl⟩
  have hcap : 0 < cap := Nat.lt_of_le_of_lt (Nat.zero_le _) hj
  have := Nat.add_right_cancel h
  exact Nat.eq_of_mul_eq_mul_right hcap this

theorem flatIdx_lt {cap i j : Nat} (hi : i < cap) (hj : j < cap) :
    i * cap + j < cap * cap := by
  calc i * cap + j < i * cap + cap := Nat.add_lt_add_left hj _
    _ = (i + 1) * cap := by ring
    _ ≤ cap * cap := Nat.mul_le_mul_right cap hi

theorem matGet_matSet_self (m : AdjMatrix) (i j : Nat) (w : Weight)
    (hlen : i * m.capacity + j < m.matrix.length) :
    matGet (matSet m i j w) i j = w := by
  show matIdxGet (matIdxSet m (i * m.capacity + j) w) (i * m.capacity + j) = w
  rw [matIdxGet_set_self, if_pos hlen]

theorem matGet_matSet_ne (m : AdjMatrix) {i j a b : Nat} (w : Weight)
    (hj : j < m.capacity) (hb : b < m.capacity) (hne : a ≠ i ∨ b ≠ j) :
    matGet (matSet m a b w) i j = matGet m i j := by
  have hidx : a * m.capacity + b ≠ i * m.capacity + j := by
    intro hcontra
    rcases flatIdx_inj hb hj hcontra with ⟨h1, h2⟩
    rcases hne with h | h
    · exact h h1
    · exact h h2
  show matIdxGet (matIdxSet m (a * m.capacity + b) w) (i * m.capacity + j) = _
  rw [matIdxGet_set_ne _ hidx]
  rfl

/-- A write of `0` can never make a zero cell nonzero. -/
theorem matGet_zero_preserved (m : AdjMatrix) (i j a b : Nat)
    (h : matGet m i j = 0) : matGet (matSet m a b 0) i j = 0 := by
  by_cases hidx : a * m.capacity + b = i * m.capacity + j
  · unfold matGet matSet
    rw [capacity_matIdxSet, hidx, matIdxGet_set_self]
    split
    · rfl
    · exact h
  · unfold matGet matSet
    rw [capacity_matIdxSet]
    rw [matIdxGet_set_ne _ hidx]
    exact h

theorem AdjList.get_set_self (l : AdjList) (i : Nat) (es : List GraphEdge)
    (h : i < l.lists.length) : (l.set i es).get i = es := by
  show (l.lists.set i es).getD i [] = es
  rw [getD_set_self, if_pos h]

theorem AdjList.get_set_ne (l : AdjList) {i j : Nat} (h : i ≠ j) (es : List GraphEdge) :
    (l.set i es).get j = l.get j := by
  show (l.lists.set i es).getD j [] = _
  rw [getD_set_ne _ h]
  rfl

theorem AdjList.length_set (l : AdjList) (i : Nat) (es : List GraphEdge) :
    (l.set i es).lists.length = l.lists.length := by
  simp [AdjList.set]

theorem findEdgeRec_eq_isSome (es : List GraphEdge) (dst : Nat) :
    findEdgeRec es dst = (getWeightRec es dst).isSome := by
  induction es with
  | nil => rfl
  | cons e rest ih =>
    by_cases h : e.dst = dst <;> simp [findEdgeRec, getWeightRec, h, ih]

/-! ## Claim theorems (first batch) -/

/-- C1: refuted (code bug).  On the pre-conversion state `gC1pre`
(2 directed logical edges, edge count 2) the List→Matrix conversion that
the hybrid trigger performs reports edge count 4 afterwards:
`_oc_graph_convert_to_matrix` replays every stored record through
`_oc_graph_insert_edge_matrix` without first resetting `num_edges`
(unlike `_oc_graph_convert_to_list`, which saves and restores it). -/
theorem C1_convert_to_matrix_inflates_edge_count :
    gC1pre.num_edges = 2 ∧ (oc_graph_convert_to_matrix gC1pre).1.num_edges = 4 := by
  decide

/-- C2: refuted (code bug).  Removing vertex `0` of the undirected list
graph `gC2pre` (logical edges `(0,1)` and `(2,3)`, edge count 2) should
leave edge count 1 — vertex `0` has exactly one incident logical edge —
but `oc_graph_rm_vertex` decrements twice for the mirrored pair (once
when freeing the vertex's own list, once when unlinking the mirror
record), reporting 0. -/
theorem C2_rm_vertex_double_decrements_mirrored_edge :
    gC2pre.num_edges = 2 ∧ (oc_graph_rm_vertex gC2pre 0).2 = true ∧
    (oc_graph_rm_vertex gC2pre 0).1.num_edges = 0 := by
  decide

/-- C3: refuted (code bug).  After inserting `(0,1,1)` and then updating
the same edge with weight `2` in an undirected graph, the stored mirror
still carries the old weight in both representations: the update path of
both insert helpers returns before touching the reverse record. -/
theorem C3_weight_update_not_mirrored :
    oc_graph_get_edge_weight gC3list 0 1 = some 2 ∧
    oc_graph_get_edge_weight gC3list 1 0 = some 1 ∧
    oc_graph_get_edge_weight gC3mat 0 1 = some 2 ∧
    oc_graph_get_edge_weight gC3mat 1 0 = some 1 := by
  decide

/-- C5: refuted (code bug).  `gC5b` is a 2-vertex matrix graph of
capacity 3 (vertex 2 was removed) holding edge `(1,0,7)`.
`oc_graph_insert_vertex` returns the old vertex count as the new index,
but `_oc_graph_resize_matrix_add` copies the old rows with stride
`num_vertices` instead of the actual row stride `capacity`, so the edge
`(1,0)` disappears and a spurious self-loop `(1,1)` appears. -/
theorem C5_insert_vertex_wrong_stride_after_removal :
    oc_graph_find_edge gC5b 1 0 = true ∧
    oc_graph_get_edge_weight gC5b 1 0 = some 7 ∧
    (oc_graph_insert_vertex gC5b).2 = some 2 ∧
    oc_graph_find_edge gC5c 1 0 = false ∧
    oc_graph_find_edge gC5c 1 1 = true := by
  decide

/-- C7 counterexample: with the slot-array allocation succeeding and the
first edge-record allocation failing, the Matrix→List conversion of
`gC7mat` (one edge `(0,1,5)`) *returns success* (`0`), yet the resulting
graph has lost the edge while still reporting `num_edges = 1` — an
allocation failure during conversion that neither fails the call nor
leaves the graph in its original state. -/
theorem C7_counterexample_node_alloc_failure_partial_commit :
    oc_graph_find_edge gC7mat 0 1 = true ∧
    (convertToListAlloc secondAllocFails gC7mat 0).2.1 = 0 ∧
    oc_graph_find_edge (convertToListAlloc secondAllocFails gC7mat 0).1 0 1 = false ∧
    (convertToListAlloc secondAllocFails gC7mat 0).1.num_edges = 1 := by
  decide

/-- C7 (amended): if the allocation of the new representation's backing
store — the matrix table for List→Matrix, the slot array for
Matrix→List — fails, the conversion call returns `-1` and the graph is
returned in its original, unconverted state. -/
theorem C7_backing_alloc_failure_rolls_back (g : Graph) (alloc : Nat → Bool) (ctr : Nat)
    (hfail : alloc ctr = false) :
    ((∃ l, g.repr = .list l) → convertToMatrixAlloc alloc g ctr = (g, -1, ctr + 1)) ∧
    ((∃ m, g.repr = .matrix m) → convertToListAlloc alloc g ctr = (g, -1, ctr + 1)) := by
  constructor
  · rintro ⟨l, hl⟩
    simp [convertToMatrixAlloc, hl, hfail]
  · rintro ⟨m, hm⟩
    simp [convertToListAlloc, hm, hfail]

/-- Witness for `C7_backing_alloc_failure_rolls_back` at concrete inputs. -/
theorem C7_backing_alloc_failure_rolls_back_witness :
    allocAlwaysFails 0 = false ∧
    convertToMatrixAlloc allocAlwaysFails gList2 0 = (gList2, -1, 1) ∧
    convertToListAlloc allocAlwaysFails gMat2 0 = (gMat2, -1, 1) :=
  ⟨by decide,
   (C7_backing_alloc_failure_rolls_back gList2 allocAlwaysFails 0 (by decide)).1 ⟨_, rfl⟩,
   (C7_backing_alloc_failure_rolls_back gMat2 allocAlwaysFails 0 (by decide)).2 ⟨_, rfl⟩⟩

/-- C8: an out-of-range vertex index makes every edge query or mutation
return its failure value with the graph untouched, under either
representation. -/
theorem C8_out_of_range_fails_without_mutation (g : Graph) (fr dst : Nat) (w : Weight)
    (h : g.num_vertices ≤ fr ∨ g.num_vertices ≤ dst) :
    oc_graph_find_edge g fr dst = false ∧
    oc_graph_get_edge_weight g fr dst = none ∧
    oc_graph_insert_edge g fr dst w = (g, -1) ∧
    oc_graph_rm_edge g fr dst = (g, false) := by
  rcases hr : g.repr with m | l
  · refine ⟨?_, ?_, ?_, ?_⟩
    · simp [oc_graph_find_edge, oc_graph_find_edge_matrix, hr, h]
    · simp [oc_graph_get_edge_weight, oc_graph_get_weight_matrix, hr, h]
    · simp [oc_graph_insert_edge, oc_graph_insert_edge_matrix, hr, h]
    · simp [oc_graph_rm_edge, oc_graph_rm_edge_matrix, hr, h]
  · refine ⟨?_, ?_, ?_, ?_⟩
    · simp [oc_graph_find_edge, oc_graph_find_edge_list, hr, h]
    · simp [oc_graph_get_edge_weight, oc_graph_get_weight_list, hr, h]
    · simp [oc_graph_insert_edge, oc_graph_insert_edge_list, hr, h]
    · simp [oc_graph_rm_edge, oc_graph_rm_edge_list, hr, h]

/-- Witness for `C8_out_of_range_fails_without_mutation`. -/
theorem C8_out_of_range_fails_without_mutation_witness :
    (gList2.num_vertices ≤ 5 ∨ gList2.num_vertices ≤ 0) ∧
    (oc_graph_find_edge gList2 5 0 = false ∧
     oc_graph_get_edge_weight gList2 5 0 = none ∧
     oc_graph_insert_edge gList2 5 0 1 = (gList2, -1) ∧
     oc_graph_rm_edge gList2 5 0 = (gList2, false)) :=
  ⟨by decide, C8_out_of_range_fails_without_mutation gList2 5 0 1 (by decide)⟩


/-- C10: in matrix mode, `InsertEdge` with weight `0` over an absent edge
"succeeds": it returns `0` and increments the reported edge count, yet
`FindEdge`/`GetEdgeWeight` report no edge afterwards (the cell holds the
"no edge" sentinel), so the count exceeds the findable edges; the same
call in list mode creates a findable record. -/
theorem C10_zero_weight_insert_matrix_vs_list :
    (∀ g m fr dst, g.repr = .matrix m → g.density_threshold ≤ 0 →
      fr < g.num_vertices → dst < g.num_vertices → matGet m fr dst = 0 →
      (oc_graph_insert_edge g fr dst 0).2 = 0 ∧
      (oc_graph_insert_edge g fr dst 0).1.num_edges = g.num_edges + 1 ∧
      oc_graph_find_edge (oc_graph_insert_edge g fr dst 0).1 fr dst = false ∧
      oc_graph_get_edge_weight (oc_graph_insert_edge g fr dst 0).1 fr dst = none) ∧
    (∀ g l fr dst, g.repr = .list l → g.density_threshold ≤ 0 →
      g.num_vertices ≤ l.lists.length →
      fr < g.num_vertices → dst < g.num_vertices → findEdgeRec (l.get fr) dst = false →
      (oc_graph_insert_edge g fr dst 0).2 = 0 ∧
      (oc_graph_insert_edge g fr dst 0).1.num_edges = g.num_edges + 1 ∧
      oc_graph_find_edge (oc_graph_insert_edge g fr dst 0).1 fr dst = true) := by
  constructor
  · intro g m fr dst hrep hth hfr hdst h0
    rcases g with ⟨n, ne, dir, rep, th⟩
    simp only at hrep hth hfr hdst
    subst hrep
    have hnb : ¬ (n ≤ fr ∨ n ≤ dst) := by omega
    have hnth : ¬ (th > 0) := not_lt.mpr hth
    have hins : oc_graph_insert_edge ⟨n, ne, dir, .matrix m, th⟩ fr dst 0
        = ({ num_vertices := n, num_edges := ne + 1, directed := dir,
             repr := .matrix (if dir = false ∧ matGet (matSet m fr dst 0) dst fr = 0
                              then matSet (matSet m fr dst 0) dst fr 0
                              else matSet m fr dst 0),
             density_threshold := th }, 0) := by
      simp only [oc_graph_insert_edge, oc_graph_insert_edge_matrix, if_neg hnb, h0,
        ne_eq, not_true_eq_false, if_false]
      simp [hnth]
    rw [hins]
    have hzero : matGet (if dir = false ∧ matGet (matSet m fr dst 0) dst fr = 0
                          then matSet (matSet m fr dst 0) dst fr 0
                          else matSet m fr dst 0) fr dst = 0 := by
      split
      · exact matGet_zero_preserved _ _ _ _ _ (matGet_zero_preserved _ _ _ _ _ h0)
      · exact matGet_zero_preserved _ _ _ _ _ h0
    refine ⟨rfl, rfl, ?_, ?_⟩
    · simp [oc_graph_find_edge, oc_graph_find_edge_matrix, hnb, hzero]
    · simp [oc_graph_get_edge_weight, oc_graph_get_weight_matrix, hnb, hzero]
  · intro g l fr dst hrep hth hlen hfr hdst hfind
    rcases g with ⟨n, ne, dir, rep, th⟩
    simp only at hrep hth hlen hfr hdst
    subst hrep
    have hnb : ¬ (n ≤ fr ∨ n ≤ dst) := by omega
    have hnth : ¬ (th > 0) := not_lt.mpr hth
    have hfr' : fr < l.lists.length := Nat.lt_of_lt_of_le hfr hlen
    cases dir with
    | true =>
      have hins : oc_graph_insert_edge ⟨n, ne, true, .list l, th⟩ fr dst 0
          = ({ num_vertices := n, num_edges := ne + 1, directed := true,
               repr := .list (l.set fr (⟨dst, 0⟩ :: l.get fr)),
               density_threshold := th }, 0) := by
        simp only [oc_graph_insert_edge, oc_graph_insert_edge_list, if_neg hnb, hfind,
          Bool.false_eq_true, if_false, if_true]
        simp [hnth]
      rw [hins]
      refine ⟨rfl, rfl, ?_⟩
      simp only [oc_graph_find_edge, oc_graph_find_edge_list]
      rw [if_neg hnb, AdjList.get_set_self _ _ _ hfr']
      simp [findEdgeRec]
    | false =>
      have hins : oc_graph_insert_edge ⟨n, ne, false, .list l, th⟩ fr dst 0
          = ({ num_vertices := n, num_edges := ne + 1, directed := false,
               repr := .list ((l.set fr (⟨dst, 0⟩ :: l.get fr)).set dst
                 (⟨fr, 0⟩ :: (l.set fr (⟨dst, 0⟩ :: l.get fr)).get dst)),
               density_threshold := th }, 0) := by
        simp only [oc_graph_insert_edge, oc_graph_insert_edge_list, if_neg hnb, hfind,
          Bool.false_eq_true, if_false]
        simp [hnth]
      rw [hins]
      refine ⟨rfl, rfl, ?_⟩
      simp only [oc_graph_find_edge, oc_graph_find_edge_list]
      rw [if_neg hnb]
      by_cases hdf : dst = fr
      · subst hdf
        have hd' : dst < (l.set dst (⟨dst, 0⟩ :: l.get dst)).lists.length := by
          rw [AdjList.length_set]; exact hfr'
        rw [AdjList.get_set_self _ _ _ hd']
        simp [findEdgeRec]
      · rw [AdjList.get_set_ne _ hdf, AdjList.get_set_self _ _ _ hfr']
        simp [findEdgeRec]


/-- Witness for `C10_zero_weight_insert_matrix_vs_list`. -/
theorem C10_zero_weight_insert_matrix_vs_list_witness :
    ((oc_graph_insert_edge gMat2 0 1 0).2 = 0 ∧
     (oc_graph_insert_edge gMat2 0 1 0).1.num_edges = gMat2.num_edges + 1 ∧
     oc_graph_find_edge (oc_graph_insert_edge gMat2 0 1 0).1 0 1 = false ∧
     oc_graph_get_edge_weight (oc_graph_insert_edge gMat2 0 1 0).1 0 1 = none) ∧
    ((oc_graph_insert_edge gList2 0 1 0).2 = 0 ∧
     (oc_graph_insert_edge gList2 0 1 0).1.num_edges = gList2.num_edges + 1 ∧
     oc_graph_find_edge (oc_graph_insert_edge gList2 0 1 0).1 0 1 = true) :=
  ⟨C10_zero_weight_insert_matrix_vs_list.1 gMat2 (oc_graph_init_matrix 2) 0 1 rfl
     (by decide) (by decide) (by decide) (by decide),
   C10_zero_weight_insert_matrix_vs_list.2 gList2 (oc_graph_init_list 2) 0 1 rfl
     (by decide) (by decide) (by decide) (by decide) (by decide)⟩

/-! ### The matrix swap loop of `oc_graph_rm_vertex` -/

theorem rmvMatStep_spec (mm : AdjMatrix) (cap n vertex last K : Nat)
    (hcap : n ≤ cap) (hlen : mm.matrix.length = cap * cap)
    (hvl : vertex < last) (hln : last < n) (hKn : K < n) :
    (rmvMatStep cap vertex last mm K).capacity = mm.capacity ∧
    (rmvMatStep cap vertex last mm K).matrix.length = cap * cap ∧
    ∀ i j, i < n → j < n →
      matIdxGet (rmvMatStep cap vertex last mm K) (i * cap + j) =
        if i = K ∧ j = vertex then matIdxGet mm (K * cap + last)
        else if i = vertex ∧ j = K then matIdxGet mm (last * cap + K)
        else matIdxGet mm (i * cap + j) := by
  have hv_n : vertex < n := Nat.lt_trans hvl hln
  have hvllast : vertex ≠ last := Nat.ne_of_lt hvl
  have hvc : vertex < cap := Nat.lt_of_lt_of_le hv_n hcap
  have hKc : K < cap := Nat.lt_of_lt_of_le hKn hcap
  have hlc : last < cap := Nat.lt_of_lt_of_le hln hcap
  have hidxA : vertex * cap + K < cap * cap := flatIdx_lt hvc hKc
  have hidxB : K * cap + vertex < cap * cap := flatIdx_lt hKc hvc
  have hAB : vertex * cap + K ≠ K * cap + last := by
    intro hc
    rcases flatIdx_inj hKc hlc hc with ⟨h1, h2⟩
    exact hvllast (h1.trans h2)
  refine ⟨rfl, ?_, ?_⟩
  · show ((mm.matrix.set _ _).set _ _).length = cap * cap
    simp [hlen]
  · intro i j hi hj
    have hic : i < cap := Nat.lt_of_lt_of_le hi hcap
    have hjc : j < cap := Nat.lt_of_lt_of_le hj hcap
    have hr2 : matIdxGet (matIdxSet mm (vertex * cap + K) (matIdxGet mm (last * cap + K)))
        (K * cap + last) = matIdxGet mm (K * cap + last) :=
      matIdxGet_set_ne mm hAB _
    have hstep : matIdxGet (rmvMatStep cap vertex last mm K) (i * cap + j)
        = matIdxGet (matIdxSet (matIdxSet mm (vertex * cap + K)
              (matIdxGet mm (last * cap + K)))
            (K * cap + vertex)
            (matIdxGet (matIdxSet mm (vertex * cap + K) (matIdxGet mm (last * cap + K)))
              (K * cap + last)))
          (i * cap + j) := rfl
    rw [hstep, hr2]
    by_cases hB : i = K ∧ j = vertex
    · rw [if_pos hB]
      obtain ⟨h1, h2⟩ := hB
      rw [h1, h2, matIdxGet_set_self]
      rw [if_pos (by rw [length_matIdxSet, hlen]; exact hidxB)]
    · rw [if_neg hB]
      have hBidx : K * cap + vertex ≠ i * cap + j := by
        intro hc
        rcases flatIdx_inj hvc hjc hc with ⟨h1, h2⟩
        exact hB ⟨h1.symm, h2.symm⟩
      rw [matIdxGet_set_ne _ hBidx]
      by_cases hA : i = vertex ∧ j = K
      · rw [if_pos hA]
        obtain ⟨h1, h2⟩ := hA
        rw [h1, h2, matIdxGet_set_self]
        rw [if_pos (by rw [hlen]; exact hidxA)]
      · rw [if_neg hA]
        have hAidx : vertex * cap + K ≠ i * cap + j := by
          intro hc
          rcases flatIdx_inj hKc hjc hc with ⟨h1, h2⟩
          exact hA ⟨h1.symm, h2.symm⟩
        rw [matIdxGet_set_ne _ hAidx]

theorem rmv_matfold_spec (m : AdjMatrix) (cap n vertex last : Nat)
    (hcap : n ≤ cap) (hlen : m.matrix.length = cap * cap)
    (hvl : vertex < last) (hln : last < n) :
    ∀ K, K ≤ n →
      ((List.range K).foldl (rmvMatStep cap vertex last) m).capacity = m.capacity ∧
      ((List.range K).foldl (rmvMatStep cap vertex last) m).matrix.length = cap * cap ∧
      ∀ i j, i < n → j < n →
        matIdxGet ((List.range K).foldl (rmvMatStep cap vertex last) m) (i * cap + j) =
          if i = vertex ∧ j = vertex then
            (if vertex < K then matIdxGet m (vertex * cap + last)
             else matIdxGet m (vertex * cap + vertex))
          else if i = vertex ∧ j < K then matIdxGet m (last * cap + j)
          else if j = vertex ∧ i < K then matIdxGet m (i * cap + last)
          else matIdxGet m (i * cap + j) := by
  have hvllast : vertex ≠ last := Nat.ne_of_lt hvl
  intro K
  induction K with
  | zero =>
    intro _
    refine ⟨rfl, hlen, ?_⟩
    intro i j hi hj
    show matIdxGet m (i * cap + j) = _
    by_cases hd : i = vertex ∧ j = vertex
    · rw [if_pos hd, if_neg (Nat.not_lt_zero _), hd.1, hd.2]
    · rw [if_neg hd, if_neg (by rintro ⟨_, h⟩; exact Nat.not_lt_zero _ h),
        if_neg (by rintro ⟨_, h⟩; exact Nat.not_lt_zero _ h)]
  | succ K ih =>
    intro hK
    have hKn : K < n := hK
    obtain ⟨hc, hl, hcell⟩ := ih (Nat.le_of_succ_le hK)
    rw [List.range_succ, List.foldl_append, List.foldl_cons, List.foldl_nil]
    obtain ⟨hc', hl', hstep⟩ :=
      rmvMatStep_spec ((List.range K).foldl (rmvMatStep cap vertex last) m)
        cap n vertex last K hcap hl hvl hln hKn
    refine ⟨by rw [hc', hc], hl', ?_⟩
    intro i j hi hj
    rw [hstep i j hi hj]
    have e1 : matIdxGet ((List.range K).foldl (rmvMatStep cap vertex last) m) (K * cap + last)
        = matIdxGet m (K * cap + last) := by
      rw [hcell K last hKn hln]
      rw [if_neg (by rintro ⟨_, h⟩; exact hvllast h.symm)]
      rw [if_neg (by rintro ⟨h1, h2⟩; omega)]
      rw [if_neg (by rintro ⟨h, _⟩; exact hvllast h.symm)]
    have e2 : matIdxGet ((List.range K).foldl (rmvMatStep cap vertex last) m) (last * cap + K)
        = matIdxGet m (last * cap + K) := by
      rw [hcell last K hln hKn]
      rw [if_neg (by rintro ⟨h, _⟩; exact hvllast h.symm)]
      rw [if_neg (by rintro ⟨h, _⟩; exact hvllast h.symm)]
      rw [if_neg (by rintro ⟨h1, h2⟩; omega)]
    rw [e1, e2, hcell i j hi hj]
    by_cases hB : i = K ∧ j = vertex
    · rw [if_pos hB]
      obtain ⟨h1, h2⟩ := hB
      by_cases hKv : K = vertex
      · rw [if_pos ⟨h1.trans hKv, h2⟩, if_pos (by omega)]
        rw [hKv]
      · rw [if_neg (by rintro ⟨hiv, _⟩; exact hKv (h1.symm.trans hiv)),
          if_neg (by rintro ⟨hiv, _⟩; exact hKv (h1.symm.trans hiv)),
          if_pos ⟨h2, by omega⟩, h1]
    · by_cases hA : i = vertex ∧ j = K
      · rw [if_neg hB, if_pos hA]
        obtain ⟨h1, h2⟩ := hA
        have hKv : K ≠ vertex := fun h => hB ⟨h1.trans h.symm, h2.trans h⟩
        rw [if_neg (by rintro ⟨_, hjv⟩; exact hKv (h2.symm.trans hjv)),
          if_pos ⟨h1, by omega⟩, h2]
      · rw [if_neg hB, if_neg hA]
        by_cases hd : i = vertex ∧ j = vertex
        · rw [if_pos hd, if_pos hd]
          have hKv : ¬ (vertex = K) := fun h => hB ⟨hd.1.trans h, hd.2⟩
          by_cases hlt : vertex < K
          · rw [if_pos hlt, if_pos (Nat.lt_succ_of_lt hlt)]
          · rw [if_neg hlt, if_neg (by omega)]
        · rw [if_neg hd, if_neg hd]
          by_cases h2c : i = vertex ∧ j < K
          · rw [if_pos h2c, if_pos ⟨h2c.1, Nat.lt_succ_of_lt h2c.2⟩]
          · have h2n : ¬ (i = vertex ∧ j < K + 1) := by
              rintro ⟨ha, hb⟩
              have hjK : j ≠ K := fun h => hA ⟨ha, h⟩
              have hjK2 : ¬ j < K := fun h => h2c ⟨ha, h⟩
              omega
            rw [if_neg h2c, if_neg h2n]
            by_cases h3c : j = vertex ∧ i < K
            · rw [if_pos h3c, if_pos ⟨h3c.1, Nat.lt_succ_of_lt h3c.2⟩]
            · have h3n : ¬ (j = vertex ∧ i < K + 1) := by
                rintro ⟨ha, hb⟩
                have hiK : i ≠ K := fun h => hB ⟨h, ha⟩
                have hiK2 : ¬ i < K := fun h => h3c ⟨ha, h⟩
                omega
              rw [if_neg h3c, if_neg h3n]


/-! ### Step 2 of the list branch of `oc_graph_rm_vertex` -/

theorem rmVertexProcess_getWeight (vertex last : Nat) (hvl : vertex < last)
    (es : List GraphEdge) (v : Nat) (hv : v < last) :
    getWeightRec (rmVertexProcessRec vertex last es).1 v
      = getWeightRec es (if v = vertex then last else v) := by
  have hne : vertex ≠ last := Nat.ne_of_lt hvl
  have hlv : last ≠ vertex := Ne.symm hne
  induction es with
  | nil =>
    simp [rmVertexProcessRec, getWeightRec]
  | cons e rest ih =>
    by_cases h1 : e.dst = vertex
    · have hred : (rmVertexProcessRec vertex last (e :: rest)).1
          = (rmVertexProcessRec vertex last rest).1 := by
        simp [rmVertexProcessRec, h1]
      rw [hred, ih]
      have hfv : ¬ e.dst = (if v = vertex then last else v) := by
        rw [h1]
        split
        · exact hne
        · rename_i hvv
          intro hc
          exact hvv hc.symm
      rw [show getWeightRec (e :: rest) (if v = vertex then last else v)
            = getWeightRec rest (if v = vertex then last else v) by
          simp [getWeightRec, hfv]]
    · by_cases h2 : e.dst = last
      · have hred : (rmVertexProcessRec vertex last (e :: rest)).1
            = { e with dst := vertex } :: (rmVertexProcessRec vertex last rest).1 := by
          simp [rmVertexProcessRec, h2, hlv, hne]
        rw [hred]
        by_cases hvv : v = vertex
        · rw [show getWeightRec ({ e with dst := vertex } :: (rmVertexProcessRec vertex last rest).1) v
                = some e.weight by simp [getWeightRec, hvv]]
          rw [if_pos hvv]
          rw [show getWeightRec (e :: rest) last = some e.weight by simp [getWeightRec, h2]]
        · rw [show getWeightRec ({ e with dst := vertex } :: (rmVertexProcessRec vertex last rest).1) v
                = getWeightRec (rmVertexProcessRec vertex last rest).1 v by
              simp only [getWeightRec]
              rw [if_neg (by intro hc; exact hvv hc.symm)]]
          rw [ih, if_neg hvv]
          rw [show getWeightRec (e :: rest) v = getWeightRec rest v by
            simp only [getWeightRec]
            rw [if_neg (by intro hc; rw [h2] at hc; omega)]]
      · have hred : (rmVertexProcessRec vertex last (e :: rest)).1
            = e :: (rmVertexProcessRec vertex last rest).1 := by
          simp [rmVertexProcessRec, h1, h2]
        rw [hred]
        by_cases hev : e.dst = v
        · have hfv : e.dst = (if v = vertex then last else v) := by
            split
            · rename_i hvv
              rw [hvv] at hev
              exact absurd hev h1
            · exact hev
          rw [show getWeightRec (e :: (rmVertexProcessRec vertex last rest).1) v
                = some e.weight by simp [getWeightRec, hev]]
          rw [show getWeightRec (e :: rest) (if v = vertex then last else v)
                = some e.weight by simp [getWeightRec, hfv]]
        · have hfv : ¬ e.dst = (if v = vertex then last else v) := by
            split
            · exact h2
            · exact hev
          rw [show getWeightRec (e :: (rmVertexProcessRec vertex last rest).1) v
                = getWeightRec (rmVertexProcessRec vertex last rest).1 v by
              simp [getWeightRec, hev]]
          rw [show getWeightRec (e :: rest) (if v = vertex then last else v)
                = getWeightRec rest (if v = vertex then last else v) by
              simp [getWeightRec, hfv]]
          exact ih

theorem rmv_step2_spec (l : AdjList) (n vertex last : Nat) (ne1 : Nat)
    (hlen : n ≤ l.lists.length) :
    ∀ K, K ≤ n →
      (((List.range K).foldl (rmvStep2 vertex last) (l, ne1)).1).lists.length
        = l.lists.length ∧
      ∀ i, (((List.range K).foldl (rmvStep2 vertex last) (l, ne1)).1).get i
        = if i < K ∧ i ≠ vertex then (rmVertexProcessRec vertex last (l.get i)).1
          else l.get i := by
  intro K
  induction K with
  | zero =>
    intro _
    refine ⟨rfl, ?_⟩
    intro i
    rw [if_neg (by rintro ⟨h, _⟩; exact Nat.not_lt_zero _ h)]
    rfl
  | succ K ih =>
    intro hK
    obtain ⟨hlenK, hget⟩ := ih (Nat.le_of_succ_le hK)
    rw [List.range_succ, List.foldl_append, List.foldl_cons, List.foldl_nil]
    by_cases hKv : K = vertex
    · rw [show rmvStep2 vertex last ((List.range K).foldl (rmvStep2 vertex last) (l, ne1)) K
          = (List.range K).foldl (rmvStep2 vertex last) (l, ne1) by
        simp [rmvStep2, hKv]]
      refine ⟨hlenK, ?_⟩
      intro i
      rw [hget i]
      by_cases hc1 : i < K ∧ i ≠ vertex
      · rw [if_pos hc1, if_pos ⟨Nat.lt_succ_of_lt hc1.1, hc1.2⟩]
      · have hc2 : ¬ (i < K + 1 ∧ i ≠ vertex) := by
          rintro ⟨ha, hb⟩
          have : i ≠ K := fun h => hb (h.trans hKv)
          exact hc1 ⟨by omega, hb⟩
        rw [if_neg hc1, if_neg hc2]
    · rw [show rmvStep2 vertex last ((List.range K).foldl (rmvStep2 vertex last) (l, ne1)) K
          = ((((List.range K).foldl (rmvStep2 vertex last) (l, ne1)).1).set K
              (rmVertexProcessRec vertex last
                ((((List.range K).foldl (rmvStep2 vertex last) (l, ne1)).1).get K)).1,
             ((List.range K).foldl (rmvStep2 vertex last) (l, ne1)).2
               - (rmVertexProcessRec vertex last
                  ((((List.range K).foldl (rmvStep2 vertex last) (l, ne1)).1).get K)).2) by
        simp [rmvStep2, hKv]]
      have hgetK : (((List.range K).foldl (rmvStep2 vertex last) (l, ne1)).1).get K
          = l.get K := by
        rw [hget K]
        rw [if_neg (by rintro ⟨h, _⟩; exact Nat.lt_irrefl _ h)]
      refine ⟨?_, ?_⟩
      · show ((((List.range K).foldl (rmvStep2 vertex last) (l, ne1)).1).set K _).lists.length = _
        rw [AdjList.length_set, hlenK]
      · intro i
        by_cases hiK : i = K
        · rw [hiK]
          rw [AdjList.get_set_self _ _ _ (by rw [hlenK]; exact Nat.lt_of_lt_of_le hK hlen)]
          rw [hgetK, if_pos ⟨Nat.lt_succ_self _, fun h => hKv h⟩]
        · rw [AdjList.get_set_ne _ (fun h => hiK h.symm)]
          rw [hget i]
          by_cases hc1 : i < K ∧ i ≠ vertex
          · rw [if_pos hc1, if_pos ⟨Nat.lt_succ_of_lt hc1.1, hc1.2⟩]
          · have hc2 : ¬ (i < K + 1 ∧ i ≠ vertex) := by
              rintro ⟨ha, hb⟩
              exact hc1 ⟨by omega, hb⟩
            rw [if_neg hc1, if_neg hc2]


/-- C6: removing a non-last vertex `k` of an `n`-vertex graph yields an
`(n-1)`-vertex graph in which every query at index `k` reads exactly what
the old graph stored at the old last index `n-1` (presence and weight) —
the old last vertex is relocated to `k` — queries over other indices are
unchanged, the removed vertex's edges are unreachable, and no query
involving an index `≥ n-1` reports an edge. -/
theorem C6_rm_vertex_reindexing (g : Graph) (vertex : Nat)
    (hwf : GraphWF g) (hv : vertex + 1 < g.num_vertices) :
    (oc_graph_rm_vertex g vertex).2 = true ∧
    (oc_graph_rm_vertex g vertex).1.num_vertices = g.num_vertices - 1 ∧
    (∀ a b, a < g.num_vertices - 1 → b < g.num_vertices - 1 →
      oc_graph_find_edge (oc_graph_rm_vertex g vertex).1 a b
        = oc_graph_find_edge g (if a = vertex then g.num_vertices - 1 else a)
            (if b = vertex then g.num_vertices - 1 else b) ∧
      oc_graph_get_edge_weight (oc_graph_rm_vertex g vertex).1 a b
        = oc_graph_get_edge_weight g (if a = vertex then g.num_vertices - 1 else a)
            (if b = vertex then g.num_vertices - 1 else b)) ∧
    (∀ a b, g.num_vertices - 1 ≤ a ∨ g.num_vertices - 1 ≤ b →
      oc_graph_find_edge (oc_graph_rm_vertex g vertex).1 a b = false ∧
      oc_graph_get_edge_weight (oc_graph_rm_vertex g vertex).1 a b = none) := by
  rcases g with ⟨n, ne, dir, rep, th⟩
  simp only at hv ⊢
  have hnv : ¬ (n ≤ vertex) := by omega
  have hvl : vertex < n - 1 := by omega
  have hln : n - 1 < n := by omega
  have hne' : vertex ≠ n - 1 := by omega
  rcases rep with m | l
  · -- matrix representation
    obtain ⟨hcap, hlen⟩ : n ≤ m.capacity ∧ m.matrix.length = m.capacity * m.capacity := hwf
    obtain ⟨hfc, hfl, hfcell⟩ :=
      rmv_matfold_spec m m.capacity n vertex (n - 1) hcap hlen hvl hln n (Nat.le_refl n)
    have hrm : oc_graph_rm_vertex ⟨n, ne, dir, .matrix m, th⟩ vertex
        = (⟨n - 1, ne, dir,
            .matrix (matIdxSet ((List.range n).foldl (rmvMatStep m.capacity vertex (n - 1)) m)
              (vertex * m.capacity + vertex)
              (matIdxGet ((List.range n).foldl (rmvMatStep m.capacity vertex (n - 1)) m)
                ((n - 1) * m.capacity + (n - 1)))),
            th⟩, true) := by
      simp only [oc_graph_rm_vertex, if_neg hnv, if_pos hne']
    rw [hrm]
    have hMcap : (matIdxSet ((List.range n).foldl (rmvMatStep m.capacity vertex (n - 1)) m)
        (vertex * m.capacity + vertex)
        (matIdxGet ((List.range n).foldl (rmvMatStep m.capacity vertex (n - 1)) m)
          ((n - 1) * m.capacity + (n - 1)))).capacity = m.capacity := by
      rw [capacity_matIdxSet, hfc]
    have hll : matIdxGet ((List.range n).foldl (rmvMatStep m.capacity vertex (n - 1)) m)
        ((n - 1) * m.capacity + (n - 1))
        = matIdxGet m ((n - 1) * m.capacity + (n - 1)) := by
      rw [hfcell (n - 1) (n - 1) hln hln]
      rw [if_neg (by rintro ⟨h, _⟩; exact hne' h.symm)]
      rw [if_neg (by rintro ⟨h, _⟩; exact hne' h.symm)]
      rw [if_neg (by rintro ⟨h, _⟩; exact hne' h.symm)]
    have hMcell : ∀ i j, i < n → j < n →
        matIdxGet (matIdxSet ((List.range n).foldl (rmvMatStep m.capacity vertex (n - 1)) m)
          (vertex * m.capacity + vertex)
          (matIdxGet ((List.range n).foldl (rmvMatStep m.capacity vertex (n - 1)) m)
            ((n - 1) * m.capacity + (n - 1)))) (i * m.capacity + j)
          = matIdxGet m ((if i = vertex then n - 1 else i) * m.capacity
              + (if j = vertex then n - 1 else j)) := by
      intro i j hi hj
      have hvc : vertex < m.capacity := Nat.lt_of_lt_of_le (Nat.lt_trans hvl hln) hcap
      have hjc : j < m.capacity := Nat.lt_of_lt_of_le hj hcap
      by_cases hd : i = vertex ∧ j = vertex
      · obtain ⟨h1, h2⟩ := hd
        rw [h1, h2, matIdxGet_set_self]
        rw [if_pos (by rw [hfl]; exact flatIdx_lt hvc hvc)]
        rw [hll, if_pos rfl]
      · have hidxne : vertex * m.capacity + vertex ≠ i * m.capacity + j := by
          intro hc
          rcases flatIdx_inj hvc hjc hc with ⟨ha, hb⟩
          exact hd ⟨ha.symm, hb.symm⟩
        rw [matIdxGet_set_ne _ hidxne]
        rw [hfcell i j hi hj]
        by_cases h1 : i = vertex
        · have hjv : j ≠ vertex := fun hc => hd ⟨h1, hc⟩
          rw [if_neg hd, if_pos ⟨h1, hj⟩, if_pos h1, if_neg hjv]
        · by_cases h2 : j = vertex
          · rw [if_neg hd, if_neg (fun hc => h1 hc.1), if_pos ⟨h2, hi⟩,
              if_neg h1, if_pos h2]
          · rw [if_neg hd, if_neg (fun hc => h1 hc.1), if_neg (fun hc => h2 hc.1),
              if_neg h1, if_neg h2]
    refine ⟨rfl, rfl, ?_, ?_⟩
    · intro a b ha hb
      have hfa : (if a = vertex then n - 1 else a) < n := by split <;> omega
      have hfb : (if b = vertex then n - 1 else b) < n := by split <;> omega
      have hbounds2 : ¬ (n ≤ (if a = vertex then n - 1 else a)
          ∨ n ≤ (if b = vertex then n - 1 else b)) := by
        push_neg
        exact ⟨hfa, hfb⟩
      have hval : matGet (matIdxSet ((List.range n).foldl
            (rmvMatStep m.capacity vertex (n - 1)) m)
            (vertex * m.capacity + vertex)
            (matIdxGet ((List.range n).foldl (rmvMatStep m.capacity vertex (n - 1)) m)
              ((n - 1) * m.capacity + (n - 1)))) a b
          = matGet m (if a = vertex then n - 1 else a) (if b = vertex then n - 1 else b) := by
        simp only [matGet, hMcap]
        exact hMcell a b (by omega) (by omega)
      constructor
      · simp only [oc_graph_find_edge, oc_graph_find_edge_matrix]
        rw [if_neg (by omega), if_neg hbounds2, hval]
      · simp only [oc_graph_get_edge_weight, oc_graph_get_weight_matrix]
        rw [if_neg (by omega), if_neg hbounds2, hval]
    · intro a b hab
      constructor
      · simp only [oc_graph_find_edge, oc_graph_find_edge_matrix]
        rw [if_pos hab]
      · simp only [oc_graph_get_edge_weight, oc_graph_get_weight_matrix]
        rw [if_pos hab]
  · -- list representation
    have hlenl : n ≤ l.lists.length := hwf
    have hrm : oc_graph_rm_vertex ⟨n, ne, dir, .list l, th⟩ vertex
        = (⟨n - 1,
            ((List.range n).foldl (rmvStep2 vertex (n - 1))
              (l, (l.get vertex).foldl (fun nn _ => nn - 1) ne)).2, dir,
            .list ((((List.range n).foldl (rmvStep2 vertex (n - 1))
                (l, (l.get vertex).foldl (fun nn _ => nn - 1) ne)).1.set vertex
                  (((List.range n).foldl (rmvStep2 vertex (n - 1))
                    (l, (l.get vertex).foldl (fun nn _ => nn - 1) ne)).1.get (n - 1))).set
                (n - 1) []),
            th⟩, true) := by
      simp only [oc_graph_rm_vertex, if_neg hnv, if_pos hne']
    rw [hrm]
    obtain ⟨hPlen, hPget⟩ :=
      rmv_step2_spec l n vertex (n - 1) ((l.get vertex).foldl (fun nn _ => nn - 1) ne)
        hlenl n (Nat.le_refl n)
    have hL4get : ∀ a, a < n - 1 →
        ((((List.range n).foldl (rmvStep2 vertex (n - 1))
            (l, (l.get vertex).foldl (fun nn _ => nn - 1) ne)).1.set vertex
              (((List.range n).foldl (rmvStep2 vertex (n - 1))
                (l, (l.get vertex).foldl (fun nn _ => nn - 1) ne)).1.get (n - 1))).set
            (n - 1) []).get a
          = (rmVertexProcessRec vertex (n - 1)
              (l.get (if a = vertex then n - 1 else a))).1 := by
      intro a ha
      rw [AdjList.get_set_ne _ (by omega : ¬ (n - 1) = a)]
      by_cases hav : a = vertex
      · rw [hav, AdjList.get_set_self _ _ _ (by rw [hPlen]; omega)]
        rw [hPget (n - 1), if_pos ⟨hln, Ne.symm hne'⟩, if_pos rfl]
      · rw [AdjList.get_set_ne _ (fun hc => hav hc.symm)]
        rw [hPget a, if_pos ⟨by omega, hav⟩, if_neg hav]
    refine ⟨rfl, rfl, ?_, ?_⟩
    · intro a b ha hb
      have hfa : (if a = vertex then n - 1 else a) < n := by split <;> omega
      have hfb : (if b = vertex then n - 1 else b) < n := by split <;> omega
      have hbounds2 : ¬ (n ≤ (if a = vertex then n - 1 else a)
          ∨ n ≤ (if b = vertex then n - 1 else b)) := by
        push_neg
        exact ⟨hfa, hfb⟩
      have hw : getWeightRec
          (((((List.range n).foldl (rmvStep2 vertex (n - 1))
              (l, (l.get vertex).foldl (fun nn _ => nn - 1) ne)).1.set vertex
                (((List.range n).foldl (rmvStep2 vertex (n - 1))
                  (l, (l.get vertex).foldl (fun nn _ => nn - 1) ne)).1.get (n - 1))).set
              (n - 1) []).get a) b
          = getWeightRec (l.get (if a = vertex then n - 1 else a))
              (if b = vertex then n - 1 else b) := by
        rw [hL4get a ha]
        exact rmVertexProcess_getWeight vertex (n - 1) hvl _ b hb
      constructor
      · simp only [oc_graph_find_edge, oc_graph_find_edge_list]
        rw [if_neg (by omega), if_neg hbounds2]
        rw [findEdgeRec_eq_isSome, findEdgeRec_eq_isSome, hw]
      · simp only [oc_graph_get_edge_weight, oc_graph_get_weight_list]
        rw [if_neg (by omega), if_neg hbounds2, hw]
    · intro a b hab
      constructor
      · simp only [oc_graph_find_edge, oc_graph_find_edge_list]
        rw [if_pos hab]
      · simp only [oc_graph_get_edge_weight, oc_graph_get_weight_list]
        rw [if_pos hab]


/-- Witness for `C6_rm_vertex_reindexing`: remove vertex 1 of the directed
4-vertex list graph `gC6w`. -/
theorem C6_rm_vertex_reindexing_witness :
    (oc_graph_rm_vertex gC6w 1).2 = true ∧
    (oc_graph_rm_vertex gC6w 1).1.num_vertices = gC6w.num_vertices - 1 ∧
    (∀ a b, a < gC6w.num_vertices - 1 → b < gC6w.num_vertices - 1 →
      oc_graph_find_edge (oc_graph_rm_vertex gC6w 1).1 a b
        = oc_graph_find_edge gC6w (if a = 1 then gC6w.num_vertices - 1 else a)
            (if b = 1 then gC6w.num_vertices - 1 else b) ∧
      oc_graph_get_edge_weight (oc_graph_rm_vertex gC6w 1).1 a b
        = oc_graph_get_edge_weight gC6w (if a = 1 then gC6w.num_vertices - 1 else a)
            (if b = 1 then gC6w.num_vertices - 1 else b)) ∧
    (∀ a b, gC6w.num_vertices - 1 ≤ a ∨ gC6w.num_vertices - 1 ≤ b →
      oc_graph_find_edge (oc_graph_rm_vertex gC6w 1).1 a b = false ∧
      oc_graph_get_edge_weight (oc_graph_rm_vertex gC6w 1).1 a b = none) :=
  C6_rm_vertex_reindexing gC6w 1 (by decide) (by decide)

/-! ### List/stream helper lemmas for the conversion proofs -/

theorem foldl_flatMap {α β γ : Type} (l : List α) (f : α → List β) (g : γ → β → γ) (init : γ) :
    (l.flatMap f).foldl g init = l.foldl (fun acc a => (f a).foldl g acc) init := by
  induction l generalizing init with
  | nil => rfl
  | cons a t ih => simp [List.flatMap_cons, List.foldl_append, ih]

theorem getWeightRec_isSome_iff (es : List GraphEdge) (v : Nat) :
    (getWeightRec es v).isSome = true ↔ ∃ e ∈ es, e.dst = v := by
  induction es with
  | nil => simp [getWeightRec]
  | cons e rest ih =>
    by_cases h : e.dst = v
    · simp [getWeightRec, h]
    · simp [getWeightRec, h, ih]

theorem getWeightRec_some_mem (es : List GraphEdge) (v : Nat) (w : Weight)
    (h : getWeightRec es v = some w) : ∃ e ∈ es, e.dst = v ∧ e.weight = w := by
  induction es with
  | nil => simp [getWeightRec] at h
  | cons e rest ih =>
    by_cases hd : e.dst = v
    · simp only [getWeightRec, if_pos hd, Option.some.injEq] at h
      exact ⟨e, List.mem_cons_self e rest, hd, h⟩
    · simp only [getWeightRec, if_neg hd] at h
      obtain ⟨e', hmem, hd', hw'⟩ := ih h
      exact ⟨e', List.mem_cons_of_mem e hmem, hd', hw'⟩

theorem getWeightRec_eq_none (es : List GraphEdge) (v : Nat)
    (h : ∀ e ∈ es, e.dst ≠ v) : getWeightRec es v = none := by
  induction es with
  | nil => rfl
  | cons e rest ih =>
    rw [getWeightRec, if_neg (h e (List.mem_cons_self e rest))]
    exact ih (fun e' he' => h e' (List.mem_cons_of_mem e he'))

theorem getWeightRec_eq_some_const (es : List GraphEdge) (v : Nat) (c : Weight)
    (hall : ∀ e ∈ es, e.dst = v → e.weight = c) (hex : ∃ e ∈ es, e.dst = v) :
    getWeightRec es v = some c := by
  induction es with
  | nil => simp at hex
  | cons e rest ih =>
    by_cases hd : e.dst = v
    · rw [getWeightRec, if_pos hd, hall e (List.mem_cons_self e rest) hd]
    · rw [getWeightRec, if_neg hd]
      obtain ⟨e', hmem, hd'⟩ := hex
      rcases List.mem_cons.1 hmem with h | h
      · rw [← h] at hd; exact absurd hd' hd
      · exact ih (fun e2 he2 => hall e2 (List.mem_cons_of_mem e he2)) ⟨e', h, hd'⟩

theorem mem_pairsOf (n : Nat) (l : AdjList) (p : Nat × GraphEdge) :
    p ∈ pairsOf n l ↔ p.1 < n ∧ p.2 ∈ l.get p.1 := by
  rcases p with ⟨i, e⟩
  simp only [pairsOf, List.mem_flatMap, List.mem_range, List.mem_map]
  constructor
  · rintro ⟨a, ha, e', he', heq⟩
    obtain ⟨h1, h2⟩ := Prod.mk.injEq .. ▸ heq
    rw [← h1, ← h2]
    exact ⟨ha, he'⟩
  · rintro ⟨hi, he⟩
    exact ⟨i, hi, e, he, rfl⟩

theorem matIdxGet_replicate (k : Nat) (idx : Nat) :
    matIdxGet ⟨List.replicate k (0 : Weight), k⟩ idx = 0 := by
  show (List.replicate k (0 : Weight)).getD idx 0 = 0
  rcases Nat.lt_or_ge idx (List.replicate k (0 : Weight)).length with h | h
  · rw [List.getD_eq_getElem _ _ h, List.getElem_replicate]
  · rw [List.getD_eq_default _ _ (by simpa using h)]


theorem matTransferActivated_append (dir : Bool) (P : List (Nat × GraphEdge))
    (p : Nat × GraphEdge) (u v : Nat) :
    matTransferActivated dir (P ++ [p]) u v ↔
      matTransferActivated dir P u v ∨ (p.1 = u ∧ p.2.dst = v)
        ∨ (dir = false ∧ p.1 = v ∧ p.2.dst = u) := by
  simp only [matTransferActivated, List.mem_append, List.mem_singleton]
  constructor
  · rintro (⟨q, hq | hq, h1, h2⟩ | ⟨hdir, q, hq | hq, h1, h2⟩)
    · exact Or.inl (Or.inl ⟨q, hq, h1, h2⟩)
    · rw [hq] at h1 h2
      exact Or.inr (Or.inl ⟨h1, h2⟩)
    · exact Or.inl (Or.inr ⟨hdir, q, hq, h1, h2⟩)
    · rw [hq] at h1 h2
      exact Or.inr (Or.inr ⟨hdir, h1, h2⟩)
  · rintro ((⟨q, hq, h1, h2⟩ | ⟨hdir, q, hq, h1, h2⟩) | ⟨h1, h2⟩ | ⟨hdir, h1, h2⟩)
    · exact Or.inl ⟨q, Or.inl hq, h1, h2⟩
    · exact Or.inr ⟨hdir, q, Or.inl hq, h1, h2⟩
    · exact Or.inl ⟨p, Or.inr rfl, h1, h2⟩
    · exact Or.inr ⟨hdir, p, Or.inr rfl, h1, h2⟩

/-- Loop invariant of `_oc_graph_convert_to_matrix`'s transfer: after
processing the records `P`, an activated cell holds the list weight and
every other cell is still `0`. -/
theorem convert_matrix_fold_inv (n : Nat) (dir : Bool) (th : ℚ) (l : AdjList)
    (h1 : ∀ i, i < n → ∀ e ∈ l.get i, e.dst < n ∧ e.weight ≠ 0 ∧ e.weight = wOfList l i e.dst)
    (hmw : dir = false → ∀ i, i < n → ∀ e ∈ l.get i, wOfList l e.dst i = e.weight) :
    ∀ (S P : List (Nat × GraphEdge)), pairsOf n l = P ++ S →
      ∀ (accne : Nat) (M : AdjMatrix), M.capacity = n → M.matrix.length = n * n →
      (∀ u v, u < n → v < n →
        (matTransferActivated dir P u v → matIdxGet M (u * n + v) = wOfList l u v) ∧
        (¬ matTransferActivated dir P u v → matIdxGet M (u * n + v) = 0)) →
      ∃ ne2 M2,
        S.foldl (fun acc p => (oc_graph_insert_edge_matrix acc p.1 p.2.dst p.2.weight).1)
            ⟨n, accne, dir, .matrix M, th⟩
          = ⟨n, ne2, dir, .matrix M2, th⟩ ∧
        M2.capacity = n ∧ M2.matrix.length = n * n ∧
        (∀ u v, u < n → v < n →
          (matTransferActivated dir (P ++ S) u v → matIdxGet M2 (u * n + v) = wOfList l u v) ∧
          (¬ matTransferActivated dir (P ++ S) u v → matIdxGet M2 (u * n + v) = 0)) := by
  intro S
  induction S with
  | nil =>
    intro P hsplit accne M hcap hlen hcells
    refine ⟨accne, M, rfl, hcap, hlen, ?_⟩
    simpa using hcells
  | cons p S' ih =>
    intro P hsplit accne M hcap hlen hcells
    obtain ⟨a, e0⟩ := p
    have hmem : (a, e0) ∈ pairsOf n l := by
      rw [hsplit]
      exact List.mem_append_right P (List.mem_cons_self _ _)
    obtain ⟨ha, he0⟩ := (mem_pairsOf n l (a, e0)).1 hmem
    obtain ⟨hb, hw0, hwof⟩ := h1 a ha e0 he0
    have hnb : ¬ (n ≤ a ∨ n ≤ e0.dst) := by omega
    have hsplit' : pairsOf n l = (P ++ [(a, e0)]) ++ S' := by
      rw [hsplit, List.append_assoc]
      rfl
    have hM1eq : matSet M a e0.dst e0.weight = matIdxSet M (a * n + e0.dst) e0.weight := by
      rw [matSet, hcap]
    have hM1cap : (matSet M a e0.dst e0.weight).capacity = n := by
      rw [hM1eq, capacity_matIdxSet, hcap]
    have hM1len : (matSet M a e0.dst e0.weight).matrix.length = n * n := by
      rw [hM1eq]
      show (M.matrix.set _ _).length = n * n
      rw [List.length_set, hlen]
    have hM1self : matIdxGet (matSet M a e0.dst e0.weight) (a * n + e0.dst) = e0.weight := by
      rw [hM1eq, matIdxGet_set_self, if_pos (by rw [hlen]; exact flatIdx_lt ha hb)]
    have hM1other : ∀ idx, idx ≠ a * n + e0.dst →
        matIdxGet (matSet M a e0.dst e0.weight) idx = matIdxGet M idx := by
      intro idx hne
      rw [hM1eq, matIdxGet_set_ne _ (fun hc => hne hc.symm)]
    have hM1get : matGet (matSet M a e0.dst e0.weight) e0.dst a
        = matIdxGet (matSet M a e0.dst e0.weight) (e0.dst * n + a) := by
      rw [matGet, hM1cap]
    have hact := fun u v => matTransferActivated_append dir P (a, e0) u v
    by_cases hmir : dir = false ∧ matGet (matSet M a e0.dst e0.weight) e0.dst a = 0
    · -- the mirror write fires
      have hins : (oc_graph_insert_edge_matrix ⟨n, accne, dir, .matrix M, th⟩
            a e0.dst e0.weight).1
          = ⟨n, if matGet M a e0.dst ≠ 0 then accne else accne + 1, dir,
              .matrix (matSet (matSet M a e0.dst e0.weight) e0.dst a e0.weight), th⟩ := by
        simp only [oc_graph_insert_edge_matrix, if_neg hnb, if_pos hmir]
      have hM2eq : matSet (matSet M a e0.dst e0.weight) e0.dst a e0.weight
          = matIdxSet (matSet M a e0.dst e0.weight) (e0.dst * n + a) e0.weight := by
        rw [matSet, hM1cap]
      have hM2cap : (matSet (matSet M a e0.dst e0.weight) e0.dst a e0.weight).capacity = n := by
        rw [hM2eq, capacity_matIdxSet, hM1cap]
      have hM2len : (matSet (matSet M a e0.dst e0.weight) e0.dst a e0.weight).matrix.length
          = n * n := by
        rw [hM2eq]
        show ((matSet M a e0.dst e0.weight).matrix.set _ _).length = n * n
        rw [List.length_set, hM1len]
      have hM2self : matIdxGet (matSet (matSet M a e0.dst e0.weight) e0.dst a e0.weight)
          (e0.dst * n + a) = e0.weight := by
        rw [hM2eq, matIdxGet_set_self, if_pos (by rw [hM1len]; exact flatIdx_lt hb ha)]
      have hM2other : ∀ idx, idx ≠ e0.dst * n + a →
          matIdxGet (matSet (matSet M a e0.dst e0.weight) e0.dst a e0.weight) idx
            = matIdxGet (matSet M a e0.dst e0.weight) idx := by
        intro idx hne
        rw [hM2eq, matIdxGet_set_ne _ (fun hc => hne hc.symm)]
      have hwba : wOfList l e0.dst a = e0.weight := hmw hmir.1 a ha e0 he0
      have hinv : ∀ u v, u < n → v < n →
          (matTransferActivated dir (P ++ [(a, e0)]) u v →
            matIdxGet (matSet (matSet M a e0.dst e0.weight) e0.dst a e0.weight) (u * n + v)
              = wOfList l u v) ∧
          (¬ matTransferActivated dir (P ++ [(a, e0)]) u v →
            matIdxGet (matSet (matSet M a e0.dst e0.weight) e0.dst a e0.weight) (u * n + v)
              = 0) := by
        intro u v hu hv
        by_cases hcase1 : a = u ∧ e0.dst = v
        · have hval : matIdxGet (matSet (matSet M a e0.dst e0.weight) e0.dst a e0.weight)
              (u * n + v) = e0.weight := by
            rw [← hcase1.1, ← hcase1.2]
            by_cases hdiag : e0.dst * n + a = a * n + e0.dst
            · rw [← hdiag, hM2self]
            · rw [hM2other _ (fun hc => hdiag hc.symm), hM1self]
          constructor
          · intro _
            rw [hval, ← hcase1.1, ← hcase1.2, hwof]
          · intro hna
            exact absurd ((hact u v).2 (Or.inr (Or.inl ⟨hcase1.1, hcase1.2⟩))) hna
        · by_cases hcase2 : e0.dst = u ∧ a = v
          · have hval : matIdxGet (matSet (matSet M a e0.dst e0.weight) e0.dst a e0.weight)
                (u * n + v) = e0.weight := by
              rw [← hcase2.1, ← hcase2.2, hM2self]
            constructor
            · intro _
              rw [hval, ← hcase2.1, ← hcase2.2, hwba]
            · intro hna
              exact absurd ((hact u v).2 (Or.inr (Or.inr ⟨hmir.1, hcase2.2, hcase2.1⟩))) hna
          · have hne2 : u * n + v ≠ e0.dst * n + a := by
              intro hc
              rcases flatIdx_inj hv ha hc with ⟨hx, hy⟩
              exact hcase2 ⟨hx.symm, hy.symm⟩
            have hne1 : u * n + v ≠ a * n + e0.dst := by
              intro hc
              rcases flatIdx_inj hv hb hc with ⟨hx, hy⟩
              exact hcase1 ⟨hx.symm, hy.symm⟩
            have hval : matIdxGet (matSet (matSet M a e0.dst e0.weight) e0.dst a e0.weight)
                (u * n + v) = matIdxGet M (u * n + v) := by
              rw [hM2other _ hne2, hM1other _ hne1]
            have hiff : matTransferActivated dir (P ++ [(a, e0)]) u v
                ↔ matTransferActivated dir P u v := by
              rw [hact u v]
              constructor
              · rintro (h | ⟨hx, hy⟩ | ⟨_, hx, hy⟩)
                · exact h
                · exact absurd ⟨hx, hy⟩ hcase1
                · exact absurd ⟨hy, hx⟩ hcase2
              · exact Or.inl
            rw [hval]
            constructor
            · intro hac
              exact (hcells u v hu hv).1 (hiff.1 hac)
            · intro hna
              exact (hcells u v hu hv).2 (fun h => hna (hiff.2 h))
      obtain ⟨ne2, M2, hfold, hc2, hl2, hcells2⟩ :=
        ih (P ++ [(a, e0)]) hsplit' (if matGet M a e0.dst ≠ 0 then accne else accne + 1)
          (matSet (matSet M a e0.dst e0.weight) e0.dst a e0.weight) hM2cap hM2len hinv
      refine ⟨ne2, M2, ?_, hc2, hl2, by rw [List.append_assoc] at hcells2; exact hcells2⟩
      rw [List.foldl_cons]
      show List.foldl _ (oc_graph_insert_edge_matrix ⟨n, accne, dir, .matrix M, th⟩
        a e0.dst e0.weight).1 S' = _
      rw [hins]
      exact hfold
    · -- no mirror write: result matrix is the single write
      have hins : (oc_graph_insert_edge_matrix ⟨n, accne, dir, .matrix M, th⟩
            a e0.dst e0.weight).1
          = ⟨n, if matGet M a e0.dst ≠ 0 then accne else accne + 1, dir,
              .matrix (matSet M a e0.dst e0.weight), th⟩ := by
        simp only [oc_graph_insert_edge_matrix, if_neg hnb, if_neg hmir]
      have hinv : ∀ u v, u < n → v < n →
          (matTransferActivated dir (P ++ [(a, e0)]) u v →
            matIdxGet (matSet M a e0.dst e0.weight) (u * n + v) = wOfList l u v) ∧
          (¬ matTransferActivated dir (P ++ [(a, e0)]) u v →
            matIdxGet (matSet M a e0.dst e0.weight) (u * n + v) = 0) := by
        intro u v hu hv
        by_cases hcase1 : a = u ∧ e0.dst = v
        · have hval : matIdxGet (matSet M a e0.dst e0.weight) (u * n + v) = e0.weight := by
            rw [← hcase1.1, ← hcase1.2, hM1self]
          constructor
          · intro _
            rw [hval, ← hcase1.1, ← hcase1.2, hwof]
          · intro hna
            exact absurd ((hact u v).2 (Or.inr (Or.inl ⟨hcase1.1, hcase1.2⟩))) hna
        · by_cases hcase2 : e0.dst = u ∧ a = v
          · -- the mirrored cell; it was nonzero already (or the graph is directed)
            have hab : a ≠ e0.dst := by
              intro hc
              exact hcase1 ⟨hc.trans hcase2.1, hc.symm.trans hcase2.2⟩
            have hne1 : u * n + v ≠ a * n + e0.dst := by
              intro hc
              rcases flatIdx_inj hv hb hc with ⟨hx, hy⟩
              exact hcase1 ⟨hx.symm, hy.symm⟩
            have hval : matIdxGet (matSet M a e0.dst e0.weight) (u * n + v)
                = matIdxGet M (u * n + v) := hM1other _ hne1
            by_cases hdf : dir = false
            · have hnz : matIdxGet M (e0.dst * n + a) ≠ 0 := by
                intro hz
                apply hmir
                refine ⟨hdf, ?_⟩
                rw [hM1get, hM1other _ (by
                  intro hc
                  rcases flatIdx_inj ha hb hc with ⟨hx, _⟩
                  exact hab hx.symm), hz]
              have hactba : matTransferActivated dir P e0.dst a := by
                by_contra hno
                exact hnz ((hcells e0.dst a hb ha).2 hno)
              have hwba : wOfList l e0.dst a = e0.weight := hmw hdf a ha e0 he0
              have hvba : matIdxGet M (e0.dst * n + a) = wOfList l e0.dst a :=
                (hcells e0.dst a hb ha).1 hactba
              constructor
              · intro _
                rw [hval, ← hcase2.1, ← hcase2.2, hvba]
              · intro hna
                exact absurd ((hact u v).2 (Or.inr (Or.inr ⟨hdf, hcase2.2, hcase2.1⟩))) hna
            · -- directed graph: nothing changes at the mirrored cell
              have hiff : matTransferActivated dir (P ++ [(a, e0)]) u v
                  ↔ matTransferActivated dir P u v := by
                rw [hact u v]
                constructor
                · rintro (h | ⟨hx, hy⟩ | ⟨hx, _, _⟩)
                  · exact h
                  · exact absurd ⟨hx, hy⟩ hcase1
                  · exact absurd hx hdf
                · exact Or.inl
              rw [hval]
              constructor
              · intro hac
                exact (hcells u v hu hv).1 (hiff.1 hac)
              · intro hna
                exact (hcells u v hu hv).2 (fun h => hna (hiff.2 h))
          · have hne1 : u * n + v ≠ a * n + e0.dst := by
              intro hc
              rcases flatIdx_inj hv hb hc with ⟨hx, hy⟩
              exact hcase1 ⟨hx.symm, hy.symm⟩
            have hval : matIdxGet (matSet M a e0.dst e0.weight) (u * n + v)
                = matIdxGet M (u * n + v) := hM1other _ hne1
            have hiff : matTransferActivated dir (P ++ [(a, e0)]) u v
                ↔ matTransferActivated dir P u v := by
              rw [hact u v]
              constructor
              · rintro (h | ⟨hx, hy⟩ | ⟨_, hx, hy⟩)
                · exact h
                · exact absurd ⟨hx, hy⟩ hcase1
                · exact absurd ⟨hy, hx⟩ hcase2
              · exact Or.inl
            rw [hval]
            constructor
            · intro hac
              exact (hcells u v hu hv).1 (hiff.1 hac)
            · intro hna
              exact (hcells u v hu hv).2 (fun h => hna (hiff.2 h))
      obtain ⟨ne2, M2, hfold, hc2, hl2, hcells2⟩ :=
        ih (P ++ [(a, e0)]) hsplit' (if matGet M a e0.dst ≠ 0 then accne else accne + 1)
          (matSet M a e0.dst e0.weight) hM1cap hM1len hinv
      refine ⟨ne2, M2, ?_, hc2, hl2, by rw [List.append_assoc] at hcells2; exact hcells2⟩
      rw [List.foldl_cons]
      show List.foldl _ (oc_graph_insert_edge_matrix ⟨n, accne, dir, .matrix M, th⟩
        a e0.dst e0.weight).1 S' = _
      rw [hins]
      exact hfold

theorem matIdxGet_init (n idx : Nat) : matIdxGet (oc_graph_init_matrix n) idx = 0 := by
  show (List.replicate (n * n) (0 : Weight)).getD idx 0 = 0
  rcases Nat.lt_or_ge idx (List.replicate (n * n) (0 : Weight)).length with h | h
  · rw [List.getD_eq_getElem _ _ h, List.getElem_replicate]
  · rw [List.getD_eq_default _ _ (by simpa using h)]

theorem mirror_wOfList (n : Nat) (l : AdjList)
    (h1 : ∀ i, i < n → ∀ e ∈ l.get i, e.dst < n ∧ e.weight ≠ 0 ∧ e.weight = wOfList l i e.dst)
    (h2 : ∀ i, i < n → ∀ e ∈ l.get i, ∃ e' ∈ l.get e.dst, e'.dst = i ∧ e'.weight = e.weight) :
    ∀ i, i < n → ∀ e ∈ l.get i, wOfList l e.dst i = e.weight := by
  intro i hi e he
  obtain ⟨hb, _, _⟩ := h1 i hi e he
  obtain ⟨e', he', hd', hw'⟩ := h2 i hi e he
  obtain ⟨_, _, hcons⟩ := h1 e.dst hb e' he'
  rw [← hd', ← hcons, hw']

theorem wOfList_symm (n : Nat) (l : AdjList)
    (h1 : ∀ i, i < n → ∀ e ∈ l.get i, e.dst < n ∧ e.weight ≠ 0 ∧ e.weight = wOfList l i e.dst)
    (h2 : ∀ i, i < n → ∀ e ∈ l.get i, ∃ e' ∈ l.get e.dst, e'.dst = i ∧ e'.weight = e.weight)
    (u v : Nat) (hu : u < n) (hv : v < n) :
    wOfList l u v = wOfList l v u := by
  have key : ∀ a b, a < n → ∀ w, getWeightRec (l.get a) b = some w →
      getWeightRec (l.get b) a = some w := by
    intro a b ha w hw
    obtain ⟨e, he, hd, hwe⟩ := getWeightRec_some_mem _ _ _ hw
    obtain ⟨hb, _, _⟩ := h1 a ha e he
    obtain ⟨e', he', hd', hw'⟩ := h2 a ha e he
    rw [hd] at he' hb
    obtain ⟨_, _, hcons⟩ := h1 b hb e' he'
    have : getWeightRec (l.get b) a = some e'.weight := by
      have hs : (getWeightRec (l.get b) a).isSome = true :=
        (getWeightRec_isSome_iff _ _).2 ⟨e', he', hd'⟩
      rcases hr : getWeightRec (l.get b) a with _ | w2
      · rw [hr] at hs; simp at hs
      · rw [hd'] at hcons
        rw [wOfList, hr, Option.getD_some] at hcons
        rw [hcons]
    rw [this, hw', hwe]
  rcases hr : getWeightRec (l.get u) v with _ | w
  · rcases hr' : getWeightRec (l.get v) u with _ | w'
    · rw [wOfList, wOfList, hr, hr']
    · rw [key v u hv w' hr'] at hr
      exact absurd hr (by simp)
  · rw [wOfList, wOfList, hr, key u v hu w hr]

/-- What List→Matrix conversion produces on a well-formed list graph: a
matrix graph of the same shape whose live block holds exactly the list
weights (`0` where no record exists). -/
theorem convert_to_matrix_spec (g : Graph) (l : AdjList)
    (hre : g.repr = .list l)
    (h1 : ∀ i, i < g.num_vertices → ∀ e ∈ l.get i,
        e.dst < g.num_vertices ∧ e.weight ≠ 0 ∧ e.weight = wOfList l i e.dst)
    (hmw : g.directed = false → ∀ i, i < g.num_vertices → ∀ e ∈ l.get i,
        wOfList l e.dst i = e.weight) :
    ∃ ne2 M2,
      oc_graph_convert_to_matrix g
        = (⟨g.num_vertices, ne2, g.directed, .matrix M2, g.density_threshold⟩, 0) ∧
      M2.capacity = g.num_vertices ∧
      M2.matrix.length = g.num_vertices * g.num_vertices ∧
      ∀ u v, u < g.num_vertices → v < g.num_vertices → matGet M2 u v = wOfList l u v := by
  obtain ⟨n, ne, dir, rep, th⟩ := g
  simp only at h1 hmw ⊢
  cases hre
  obtain ⟨ne2, M2, hfold, hcap, hlen, hcells⟩ :=
    convert_matrix_fold_inv n dir th l h1 hmw (pairsOf n l) [] rfl ne
      (oc_graph_init_matrix n) rfl (by simp [oc_graph_init_matrix])
      (by
        intro u v hu hv
        constructor
        · rintro (⟨p, hp, _⟩ | ⟨_, p, hp, _⟩) <;> simp at hp
        · intro _
          exact matIdxGet_init n (u * n + v))
  have hflat : (List.range n).foldl
      (fun acc i => (l.get i).foldl
        (fun acc2 e => (oc_graph_insert_edge_matrix acc2 i e.dst e.weight).1) acc)
      ⟨n, ne, dir, .matrix (oc_graph_init_matrix n), th⟩
      = ⟨n, ne2, dir, .matrix M2, th⟩ := by
    rw [← hfold]
    rw [pairsOf, foldl_flatMap]
    simp only [List.foldl_map]
  refine ⟨ne2, M2, ?_, hcap, hlen, ?_⟩
  · show (_, (0 : Int)) = _
    rw [hflat]
  · intro u v hu hv
    rw [matGet, hcap]
    by_cases hact : matTransferActivated dir (pairsOf n l) u v
    · exact (hcells u v hu hv).1 (by rw [List.nil_append]; exact hact)
    · rw [(hcells u v hu hv).2 (by rw [List.nil_append]; exact hact)]
      have hnone : getWeightRec (l.get u) v = none := by
        apply getWeightRec_eq_none
        intro e he hd
        exact hact (Or.inl ⟨(u, e), (mem_pairsOf n l (u, e)).2 ⟨hu, he⟩, rfl, hd⟩)
      rw [wOfList, hnone]
      rfl

theorem mem_cellPairs (n : Nat) (p : Nat × Nat) :
    p ∈ cellPairs n ↔ p.1 < n ∧ p.2 < n := by
  rcases p with ⟨i, j⟩
  simp only [cellPairs, List.mem_flatMap, List.mem_range, List.mem_map]
  constructor
  · rintro ⟨a, ha, b, hb, heq⟩
    obtain ⟨h1, h2⟩ := Prod.mk.injEq .. ▸ heq
    rw [← h1, ← h2]
    exact ⟨ha, hb⟩
  · rintro ⟨hi, hj⟩
    exact ⟨i, hi, j, hj, rfl⟩

theorem cellPairs_nodup (n : Nat) : (cellPairs n).Nodup := by
  have heq : cellPairs n = (List.range n) ×ˢ (List.range n) := rfl
  rw [heq]
  exact (List.nodup_range n).product (List.nodup_range n)

theorem listTransferActivated_append (dir : Bool) (m : AdjMatrix)
    (P : List (Nat × Nat)) (q : Nat × Nat) (u v : Nat) :
    listTransferActivated dir m (P ++ [q]) u v ↔
      listTransferActivated dir m P u v ∨
        (listTransferCond dir m q ∧ (q = (u, v) ∨ (dir = false ∧ q = (v, u)))) := by
  simp only [listTransferActivated, List.mem_append, List.mem_singleton]
  constructor
  · rintro ⟨p, hp | hp, hc, ho⟩
    · exact Or.inl ⟨p, hp, hc, ho⟩
    · rw [hp] at hc ho
      exact Or.inr ⟨hc, ho⟩
  · rintro (⟨p, hp, hc, ho⟩ | ⟨hc, ho⟩)
    · exact ⟨p, Or.inl hp, hc, ho⟩
    · exact ⟨q, Or.inr rfl, hc, ho⟩

/-- Prepending a fresh forward record: effect on the weight queries
(directed insert). -/
theorem insertFwd_getWeight (L : AdjList) (a b : Nat) (w : Weight)
    (halen : a < L.lists.length) (u v : Nat) :
    getWeightRec ((L.set a (⟨b, w⟩ :: L.get a)).get u) v
      = if u = a ∧ v = b then some w else getWeightRec (L.get u) v := by
  by_cases hu : u = a
  · rw [hu, AdjList.get_set_self _ _ _ halen]
    by_cases hv : v = b
    · rw [if_pos ⟨rfl, hv⟩]
      show (if b = v then some w else _) = _
      rw [if_pos hv.symm]
    · rw [if_neg (fun hc => hv hc.2)]
      show (if b = v then some w else getWeightRec (L.get a) v) = _
      rw [if_neg (fun hc => hv hc.symm)]
  · rw [AdjList.get_set_ne _ (fun hc => hu hc.symm), if_neg (fun hc => hu hc.1)]

theorem insertFwd_mem (L : AdjList) (a b : Nat) (w : Weight) (u : Nat)
    (e : GraphEdge) (he : e ∈ (L.set a (⟨b, w⟩ :: L.get a)).get u) :
    (u = a ∧ e = ⟨b, w⟩) ∨ e ∈ L.get u := by
  by_cases hu : u = a
  · rcases Nat.lt_or_ge a L.lists.length with hl | hl
    · rw [hu, AdjList.get_set_self _ _ _ hl] at he
      rcases List.mem_cons.1 he with h | h
      · exact Or.inl ⟨hu, h⟩
      · rw [hu]
        exact Or.inr h
    · rw [AdjList.set, AdjList.get] at he
      rw [List.set_eq_of_length_le (by simpa using hl)] at he
      exact Or.inr he
  · rw [AdjList.get_set_ne _ (fun hc => hu hc.symm)] at he
    exact Or.inr he

/-- Prepending a fresh forward record and its mirror: effect on the
weight queries (undirected insert). -/
theorem insertBoth_getWeight (L : AdjList) (a b : Nat) (w : Weight)
    (halen : a < L.lists.length) (hblen : b < L.lists.length) (u v : Nat) :
    getWeightRec
      (((L.set a (⟨b, w⟩ :: L.get a)).set b
          (⟨a, w⟩ :: (L.set a (⟨b, w⟩ :: L.get a)).get b)).get u) v
      = if (u = a ∧ v = b) ∨ (u = b ∧ v = a) then some w
        else getWeightRec (L.get u) v := by
  have hblen1 : b < (L.set a (⟨b, w⟩ :: L.get a)).lists.length := by
    rw [AdjList.length_set]; exact hblen
  by_cases hub : u = b
  · rw [hub, AdjList.get_set_self _ _ _ hblen1]
    by_cases hva : v = a
    · rw [hva, if_pos (Or.inr ⟨rfl, rfl⟩)]
      show (if a = a then some w else _) = _
      rw [if_pos rfl]
    · show (if a = v then some w else
          getWeightRec ((L.set a (⟨b, w⟩ :: L.get a)).get b) v) = _
      rw [if_neg (fun hc => hva hc.symm), insertFwd_getWeight L a b w halen b v]
      by_cases hba : b = a
      · by_cases hvb : v = b
        · rw [if_pos ⟨hba, hvb⟩, if_pos (Or.inl ⟨hba, hvb⟩)]
        · rw [if_neg (fun hc => hvb hc.2),
            if_neg (fun hc => hc.elim (fun h => hvb h.2) (fun h => hva h.2))]
      · rw [if_neg (fun hc => hba hc.1),
          if_neg (fun hc => hc.elim (fun h => hba h.1) (fun h => hva h.2))]
  · rw [AdjList.get_set_ne _ (fun hc => hub hc.symm),
      insertFwd_getWeight L a b w halen u v]
    by_cases hua : u = a
    · by_cases hvb : v = b
      · rw [if_pos ⟨hua, hvb⟩, if_pos (Or.inl ⟨hua, hvb⟩)]
      · rw [if_neg (fun hc => hvb hc.2),
          if_neg (fun hc => hc.elim (fun h => hvb h.2) (fun h => hub h.1))]
    · rw [if_neg (fun hc => hua hc.1),
        if_neg (fun hc => hc.elim (fun h => hua h.1) (fun h => hub h.1))]

theorem insertBoth_mem (L : AdjList) (a b : Nat) (w : Weight) (u : Nat)
    (e : GraphEdge)
    (he : e ∈ ((L.set a (⟨b, w⟩ :: L.get a)).set b
        (⟨a, w⟩ :: (L.set a (⟨b, w⟩ :: L.get a)).get b)).get u) :
    (u = a ∧ e = ⟨b, w⟩) ∨ (u = b ∧ e = ⟨a, w⟩) ∨ e ∈ L.get u := by
  by_cases hub : u = b
  · rcases Nat.lt_or_ge b (L.set a (⟨b, w⟩ :: L.get a)).lists.length with hl | hl
    · rw [hub, AdjList.get_set_self _ _ _ hl] at he
      rcases List.mem_cons.1 he with h | h
      · exact Or.inr (Or.inl ⟨hub, h⟩)
      · rcases insertFwd_mem L a b w b e h with ⟨h1, h2⟩ | h1
        · exact Or.inl ⟨hub.trans h1, h2⟩
        · rw [hub]
          exact Or.inr (Or.inr h1)
    · rw [AdjList.set, AdjList.get] at he
      rw [List.set_eq_of_length_le (by simpa using hl)] at he
      rcases insertFwd_mem L a b w u e he with ⟨h1, h2⟩ | h1
      · exact Or.inl ⟨h1, h2⟩
      · exact Or.inr (Or.inr h1)
  · rw [AdjList.get_set_ne _ (fun hc => hub hc.symm)] at he
    rcases insertFwd_mem L a b w u e he with ⟨h1, h2⟩ | h1
    · exact Or.inl ⟨h1, h2⟩
    · exact Or.inr (Or.inr h1)

/-- Loop invariant of `_oc_graph_convert_to_list`'s transfer: after
processing the cells `P`, an activated record holds the matrix weight,
no other record exists, and every stored record mirrors a nonzero cell. -/
theorem convert_list_fold_inv (n : Nat) (dir : Bool) (th : ℚ) (m : AdjMatrix)
    (hsym : dir = false → ∀ i, i < n → ∀ j, j < n → matGet m i j = matGet m j i) :
    ∀ (S P : List (Nat × Nat)), cellPairs n = P ++ S →
      ∀ (accne : Nat) (L : AdjList), L.lists.length = n →
      (∀ u v, u < n → v < n →
        (listTransferActivated dir m P u v →
          getWeightRec (L.get u) v = some (matGet m u v)) ∧
        (¬ listTransferActivated dir m P u v → getWeightRec (L.get u) v = none)) →
      (∀ u, u < n → ∀ e ∈ L.get u,
        e.dst < n ∧ e.weight = matGet m u e.dst ∧ matGet m u e.dst ≠ 0) →
      ∃ ne2 L2,
        S.foldl (fun acc p =>
            if matGet m p.1 p.2 ≠ 0 then
              if acc.directed = true ∨ p.1 ≤ p.2 then
                (oc_graph_insert_edge_list acc p.1 p.2 (matGet m p.1 p.2)).1
              else acc
            else acc)
          ⟨n, accne, dir, .list L, th⟩ = ⟨n, ne2, dir, .list L2, th⟩ ∧
        L2.lists.length = n ∧
        (∀ u v, u < n → v < n →
          (listTransferActivated dir m (P ++ S) u v →
            getWeightRec (L2.get u) v = some (matGet m u v)) ∧
          (¬ listTransferActivated dir m (P ++ S) u v →
            getWeightRec (L2.get u) v = none)) ∧
        (∀ u, u < n → ∀ e ∈ L2.get u,
          e.dst < n ∧ e.weight = matGet m u e.dst ∧ matGet m u e.dst ≠ 0) := by
  intro S
  induction S with
  | nil =>
    intro P hsplit accne L hlen hcells hmemi
    refine ⟨accne, L, rfl, hlen, by simpa using hcells, hmemi⟩
  | cons p S' ih =>
    intro P hsplit accne L hlen hcells hmemi
    obtain ⟨a, b⟩ := p
    have hmem : (a, b) ∈ cellPairs n := by
      rw [hsplit]
      exact List.mem_append_right P (List.mem_cons_self _ _)
    obtain ⟨ha, hb⟩ := (mem_cellPairs n (a, b)).1 hmem
    have hsplit' : cellPairs n = (P ++ [(a, b)]) ++ S' := by
      rw [hsplit, List.append_assoc]
      rfl
    have hact := fun u v => listTransferActivated_append dir m P (a, b) u v
    simp only [List.foldl_cons]
    by_cases hz : matGet m a b = 0
    · rw [if_neg (fun hc => hc hz)]
      have hiff : ∀ u v, listTransferActivated dir m (P ++ [(a, b)]) u v
          ↔ listTransferActivated dir m P u v := by
        intro u v
        rw [hact u v]
        constructor
        · rintro (h | ⟨⟨hnz, _⟩, _⟩)
          · exact h
          · exact absurd hz hnz
        · exact Or.inl
      obtain ⟨ne2, L2, hfold, hl2, hcells2, hmem2⟩ :=
        ih (P ++ [(a, b)]) hsplit' accne L hlen
          (by
            intro u v hu hv
            constructor
            · intro hx
              exact (hcells u v hu hv).1 ((hiff u v).1 hx)
            · intro hx
              exact (hcells u v hu hv).2 (fun h => hx ((hiff u v).2 h)))
          hmemi
      refine ⟨ne2, L2, hfold, hl2, ?_, hmem2⟩
      rw [List.append_assoc] at hcells2
      exact hcells2
    · rw [if_pos hz]
      by_cases hcnd : dir = true ∨ a ≤ b
      · rw [if_pos hcnd]
        have hnotP : (a, b) ∉ P := by
          have hnd := cellPairs_nodup n
          rw [hsplit] at hnd
          have hdisj := List.disjoint_of_nodup_append hnd
          intro hc
          exact hdisj hc (List.mem_cons_self _ _)
        have hfresh : ¬ listTransferActivated dir m P a b := by
          rintro ⟨p, hp, ⟨hnz', hor'⟩, hpe | ⟨hdf', hpe⟩⟩
          · exact hnotP (hpe ▸ hp)
          · rcases hor' with hdt | hba
            · rw [hdf'] at hdt
              exact Bool.false_ne_true hdt
            · rcases hcnd with hdt | hab
              · rw [hdf'] at hdt
                exact Bool.false_ne_true hdt
              · rw [hpe] at hba
                have hab2 : (a, b) = (b, a) := by
                  rw [Nat.le_antisymm hab hba]
                exact hnotP (by rw [hab2]; exact hpe ▸ hp)
        have hnone : getWeightRec (L.get a) b = none := (hcells a b ha hb).2 hfresh
        have hfind : findEdgeRec (L.get a) b = false := by
          rw [findEdgeRec_eq_isSome, hnone]
          rfl
        have hnb : ¬ (n ≤ a ∨ n ≤ b) := by omega
        have halen : a < L.lists.length := hlen ▸ ha
        have hblen : b < L.lists.length := hlen ▸ hb
        by_cases hd : dir = true
        · -- directed: single forward record
          have hins : (oc_graph_insert_edge_list ⟨n, accne, dir, .list L, th⟩
                a b (matGet m a b)).1
              = ⟨n, accne + 1, dir, .list (L.set a (⟨b, matGet m a b⟩ :: L.get a)), th⟩ := by
            simp only [oc_graph_insert_edge_list, if_neg hnb, hfind, Bool.false_eq_true,
              if_false]
            rw [if_pos hd]
          have hlen1 : (L.set a (⟨b, matGet m a b⟩ :: L.get a)).lists.length = n := by
            rw [AdjList.length_set, hlen]
          have hcells1 : ∀ u v, u < n → v < n →
              (listTransferActivated dir m (P ++ [(a, b)]) u v →
                getWeightRec ((L.set a (⟨b, matGet m a b⟩ :: L.get a)).get u) v
                  = some (matGet m u v)) ∧
              (¬ listTransferActivated dir m (P ++ [(a, b)]) u v →
                getWeightRec ((L.set a (⟨b, matGet m a b⟩ :: L.get a)).get u) v
                  = none) := by
            intro u v hu hv
            rw [insertFwd_getWeight L a b (matGet m a b) halen u v]
            by_cases hc1 : u = a ∧ v = b
            · rw [if_pos hc1]
              have hq : (a, b) = (u, v) := by rw [hc1.1, hc1.2]
              have hactp : listTransferActivated dir m (P ++ [(a, b)]) u v :=
                (hact u v).2 (Or.inr ⟨⟨hz, hcnd⟩, Or.inl hq⟩)
              constructor
              · intro _
                rw [hc1.1, hc1.2]
              · intro hna
                exact absurd hactp hna
            · rw [if_neg hc1]
              have hiff : listTransferActivated dir m (P ++ [(a, b)]) u v
                  ↔ listTransferActivated dir m P u v := by
                rw [hact u v]
                constructor
                · rintro (h | ⟨_, hq | ⟨hdf', _⟩⟩)
                  · exact h
                  · obtain ⟨h1, h2⟩ := Prod.mk.injEq .. ▸ hq
                    exact absurd ⟨h1.symm, h2.symm⟩ hc1
                  · rw [hdf'] at hd
                    exact absurd hd (by simp)
                · exact Or.inl
              constructor
              · intro hx
                exact (hcells u v hu hv).1 (hiff.1 hx)
              · intro hx
                exact (hcells u v hu hv).2 (fun h => hx (hiff.2 h))
          have hmem1 : ∀ u, u < n → ∀ e ∈ (L.set a (⟨b, matGet m a b⟩ :: L.get a)).get u,
              e.dst < n ∧ e.weight = matGet m u e.dst ∧ matGet m u e.dst ≠ 0 := by
            intro u hu e he
            rcases insertFwd_mem L a b (matGet m a b) u e he with ⟨h1, h2⟩ | h1
            · rw [h1, h2]
              exact ⟨hb, rfl, hz⟩
            · exact hmemi u hu e h1
          obtain ⟨ne2, L2, hfold, hl2, hcells2, hmem2⟩ :=
            ih (P ++ [(a, b)]) hsplit' (accne + 1)
              (L.set a (⟨b, matGet m a b⟩ :: L.get a)) hlen1 hcells1 hmem1
          refine ⟨ne2, L2, ?_, hl2, ?_, hmem2⟩
          · rw [hins]
            exact hfold
          · rw [List.append_assoc] at hcells2
            exact hcells2
        · -- undirected: forward record and its mirror
          have hdf : dir = false := by
            revert hd
            cases dir <;> simp
          have hins : (oc_graph_insert_edge_list ⟨n, accne, dir, .list L, th⟩
                a b (matGet m a b)).1
              = ⟨n, accne + 1, dir,
                  .list ((L.set a (⟨b, matGet m a b⟩ :: L.get a)).set b
                    (⟨a, matGet m a b⟩ ::
                      (L.set a (⟨b, matGet m a b⟩ :: L.get a)).get b)), th⟩ := by
            simp only [oc_graph_insert_edge_list, if_neg hnb, hfind, Bool.false_eq_true,
              if_false]
            rw [if_neg hd]
          have hlen1 : ((L.set a (⟨b, matGet m a b⟩ :: L.get a)).set b
              (⟨a, matGet m a b⟩ ::
                (L.set a (⟨b, matGet m a b⟩ :: L.get a)).get b)).lists.length = n := by
            rw [AdjList.length_set, AdjList.length_set, hlen]
          have hsymab : matGet m b a = matGet m a b := (hsym hdf a ha b hb).symm
          have hcells1 : ∀ u v, u < n → v < n →
              (listTransferActivated dir m (P ++ [(a, b)]) u v →
                getWeightRec (((L.set a (⟨b, matGet m a b⟩ :: L.get a)).set b
                  (⟨a, matGet m a b⟩ ::
                    (L.set a (⟨b, matGet m a b⟩ :: L.get a)).get b)).get u) v
                  = some (matGet m u v)) ∧
              (¬ listTransferActivated dir m (P ++ [(a, b)]) u v →
                getWeightRec (((L.set a (⟨b, matGet m a b⟩ :: L.get a)).set b
                  (⟨a, matGet m a b⟩ ::
                    (L.set a (⟨b, matGet m a b⟩ :: L.get a)).get b)).get u) v
                  = none) := by
            intro u v hu hv
            rw [insertBoth_getWeight L a b (matGet m a b) halen hblen u v]
            by_cases hc1 : (u = a ∧ v = b) ∨ (u = b ∧ v = a)
            · rw [if_pos hc1]
              have hval : matGet m u v = matGet m a b := by
                rcases hc1 with ⟨h1, h2⟩ | ⟨h1, h2⟩
                · rw [h1, h2]
                · rw [h1, h2, hsymab]
              have hactp : listTransferActivated dir m (P ++ [(a, b)]) u v := by
                rcases hc1 with ⟨h1, h2⟩ | ⟨h1, h2⟩
                · exact (hact u v).2 (Or.inr ⟨⟨hz, hcnd⟩, Or.inl (by rw [h1, h2])⟩)
                · exact (hact u v).2
                    (Or.inr ⟨⟨hz, hcnd⟩, Or.inr ⟨hdf, by rw [h1, h2]⟩⟩)
              constructor
              · intro _
                rw [hval]
              · intro hna
                exact absurd hactp hna
            · rw [if_neg hc1]
              have hiff : listTransferActivated dir m (P ++ [(a, b)]) u v
                  ↔ listTransferActivated dir m P u v := by
                rw [hact u v]
                constructor
                · rintro (h | ⟨_, hq | ⟨_, hq⟩⟩)
                  · exact h
                  · obtain ⟨h1, h2⟩ := Prod.mk.injEq .. ▸ hq
                    exact absurd (Or.inl ⟨h1.symm, h2.symm⟩) hc1
                  · obtain ⟨h1, h2⟩ := Prod.mk.injEq .. ▸ hq
                    exact absurd (Or.inr ⟨h2.symm, h1.symm⟩) hc1
                · exact Or.inl
              constructor
              · intro hx
                exact (hcells u v hu hv).1 (hiff.1 hx)
              · intro hx
                exact (hcells u v hu hv).2 (fun h => hx (hiff.2 h))
          have hmem1 : ∀ u, u < n →
              ∀ e ∈ ((L.set a (⟨b, matGet m a b⟩ :: L.get a)).set b
                (⟨a, matGet m a b⟩ ::
                  (L.set a (⟨b, matGet m a b⟩ :: L.get a)).get b)).get u,
              e.dst < n ∧ e.weight = matGet m u e.dst ∧ matGet m u e.dst ≠ 0 := by
            intro u hu e he
            rcases insertBoth_mem L a b (matGet m a b) u e he with
              ⟨h1, h2⟩ | ⟨h1, h2⟩ | h1
            · rw [h1, h2]
              exact ⟨hb, rfl, hz⟩
            · rw [h1, h2]
              refine ⟨ha, ?_, ?_⟩
              · show matGet m a b = matGet m b a
                rw [hsymab]
              · show matGet m b a ≠ 0
                rw [hsymab]
                exact hz
            · exact hmemi u hu e h1
          obtain ⟨ne2, L2, hfold, hl2, hcells2, hmem2⟩ :=
            ih (P ++ [(a, b)]) hsplit' (accne + 1)
              ((L.set a (⟨b, matGet m a b⟩ :: L.get a)).set b
                (⟨a, matGet m a b⟩ ::
                  (L.set a (⟨b, matGet m a b⟩ :: L.get a)).get b)) hlen1 hcells1 hmem1
          refine ⟨ne2, L2, ?_, hl2, ?_, hmem2⟩
          · rw [hins]
            exact hfold
          · rw [List.append_assoc] at hcells2
            exact hcells2
      · rw [if_neg hcnd]
        have hiff : ∀ u v, listTransferActivated dir m (P ++ [(a, b)]) u v
            ↔ listTransferActivated dir m P u v := by
          intro u v
          rw [hact u v]
          constructor
          · rintro (h | ⟨⟨_, hor'⟩, _⟩)
            · exact h
            · exact absurd hor' hcnd
          · exact Or.inl
        obtain ⟨ne2, L2, hfold, hl2, hcells2, hmem2⟩ :=
          ih (P ++ [(a, b)]) hsplit' accne L hlen
            (by
              intro u v hu hv
              constructor
              · intro hx
                exact (hcells u v hu hv).1 ((hiff u v).1 hx)
              · intro hx
                exact (hcells u v hu hv).2 (fun h => hx ((hiff u v).2 h)))
            hmemi
        refine ⟨ne2, L2, hfold, hl2, ?_, hmem2⟩
        rw [List.append_assoc] at hcells2
        exact hcells2

theorem getWeightRec_wOfList_ite (n : Nat) (l : AdjList)
    (h1 : ∀ i, i < n → ∀ e ∈ l.get i,
      e.dst < n ∧ e.weight ≠ 0 ∧ e.weight = wOfList l i e.dst)
    (u v : Nat) (hu : u < n) :
    getWeightRec (l.get u) v
      = if wOfList l u v = 0 then none else some (wOfList l u v) := by
  rcases hq : getWeightRec (l.get u) v with _ | w
  · rw [wOfList, hq]
    rfl
  · obtain ⟨e, he, _, hw⟩ := getWeightRec_some_mem _ _ _ hq
    have hnz : w ≠ 0 := hw ▸ (h1 u hu e he).2.1
    rw [wOfList, hq, Option.getD_some, if_neg hnz]

/-- What Matrix→List conversion produces: a list graph of the same shape
(edge count restored) whose records are exactly the nonzero live cells. -/
theorem convert_to_list_spec (g : Graph) (m : AdjMatrix)
    (hre : g.repr = .matrix m)
    (hsym : g.directed = false → ∀ i, i < g.num_vertices → ∀ j, j < g.num_vertices →
        matGet m i j = matGet m j i) :
    ∃ L2,
      oc_graph_convert_to_list g
        = (⟨g.num_vertices, g.num_edges, g.directed, .list L2, g.density_threshold⟩, 0) ∧
      L2.lists.length = g.num_vertices ∧
      (∀ u v, u < g.num_vertices → v < g.num_vertices →
        getWeightRec (L2.get u) v
          = if matGet m u v = 0 then none else some (matGet m u v)) ∧
      (∀ u, u < g.num_vertices → ∀ e ∈ L2.get u,
        e.dst < g.num_vertices ∧ e.weight = matGet m u e.dst ∧ matGet m u e.dst ≠ 0) := by
  obtain ⟨n, ne, dir, rep, th⟩ := g
  simp only at hsym ⊢
  cases hre
  have hinit : ∀ u, (oc_graph_init_list n).get u = [] := by
    intro u
    show (List.replicate n ([] : List GraphEdge)).getD u [] = []
    rcases Nat.lt_or_ge u (List.replicate n ([] : List GraphEdge)).length with h | h
    · rw [List.getD_eq_getElem _ _ h, List.getElem_replicate]
    · rw [List.getD_eq_default _ _ (by simpa using h)]
  obtain ⟨ne2, L2, hfold, hl2, hcells2, hmem2⟩ :=
    convert_list_fold_inv n dir th m hsym (cellPairs n) [] rfl 0
      (oc_graph_init_list n) (by simp [oc_graph_init_list])
      (by
        intro u v hu hv
        constructor
        · rintro ⟨p, hp, _⟩
          simp at hp
        · intro _
          rw [hinit u]
          rfl)
      (by
        intro u hu e he
        rw [hinit u] at he
        simp at he)
  have hflat : (List.range n).foldl
      (fun acc i => (List.range n).foldl
        (fun acc2 j =>
          if matGet m i j ≠ 0 then
            if acc2.directed = true ∨ i ≤ j then
              (oc_graph_insert_edge_list acc2 i j (matGet m i j)).1
            else acc2
          else acc2) acc)
      ⟨n, 0, dir, .list (oc_graph_init_list n), th⟩
      = ⟨n, ne2, dir, .list L2, th⟩ := by
    rw [← hfold, cellPairs, foldl_flatMap]
    simp only [List.foldl_map]
  have hactfull : ∀ u v, u < n → v < n → matGet m u v ≠ 0 →
      listTransferActivated dir m (cellPairs n) u v := by
    intro u v hu hv hnz
    by_cases hd : dir = true
    · exact ⟨(u, v), (mem_cellPairs n (u, v)).2 ⟨hu, hv⟩, ⟨hnz, Or.inl hd⟩, Or.inl rfl⟩
    · have hdf : dir = false := by revert hd; cases dir <;> simp
      rcases le_or_lt u v with huv | hvu
      · exact ⟨(u, v), (mem_cellPairs n (u, v)).2 ⟨hu, hv⟩, ⟨hnz, Or.inr huv⟩, Or.inl rfl⟩
      · refine ⟨(v, u), (mem_cellPairs n (v, u)).2 ⟨hv, hu⟩,
          ⟨?_, Or.inr (Nat.le_of_lt hvu)⟩, Or.inr ⟨hdf, rfl⟩⟩
        rw [hsym hdf v hv u hu]
        exact hnz
  have hnactfull : ∀ u v, u < n → v < n → matGet m u v = 0 →
      ¬ listTransferActivated dir m (cellPairs n) u v := by
    rintro u v hu hv hz ⟨p, hp, ⟨hnz, _⟩, hpe | ⟨hdf, hpe⟩⟩
    · rw [hpe] at hnz
      exact hnz hz
    · rw [hpe] at hnz
      apply hnz
      show matGet m v u = 0
      rw [hsym hdf v hv u hu]
      exact hz
  refine ⟨L2, ?_, hl2, ?_, hmem2⟩
  · show ({ (List.range n).foldl
        (fun acc i => (List.range n).foldl
          (fun acc2 j =>
            if matGet m i j ≠ 0 then
              if acc2.directed = true ∨ i ≤ j then
                (oc_graph_insert_edge_list acc2 i j (matGet m i j)).1
              else acc2
            else acc2) acc)
        ⟨n, 0, dir, ReprData.list (oc_graph_init_list n), th⟩ with num_edges := ne },
      (0 : Int)) = _
    rw [hflat]
  · intro u v hu hv
    by_cases hz : matGet m u v = 0
    · rw [if_pos hz]
      exact (hcells2 u v hu hv).2
        (by rw [List.nil_append]; exact hnactfull u v hu hv hz)
    · rw [if_neg hz]
      exact (hcells2 u v hu hv).1
        (by rw [List.nil_append]; exact hactfull u v hu hv hz)

/-- C4: confirmed.  Round-trip conversion fidelity: from a well-formed
list representation, List→Matrix→List preserves both edge-query
observables (`FindEdge`, `GetEdgeWeight`) at every vertex pair; from a
matrix representation that is symmetric when the graph is undirected,
Matrix→List→Matrix does the same. -/
theorem C4_roundtrip_conversion_fidelity :
    (∀ (g : Graph) (l : AdjList), g.repr = .list l → ListReprWF g l →
      ∀ u v,
        oc_graph_find_edge (oc_graph_convert_to_list
            (oc_graph_convert_to_matrix g).1).1 u v
          = oc_graph_find_edge g u v ∧
        oc_graph_get_edge_weight (oc_graph_convert_to_list
            (oc_graph_convert_to_matrix g).1).1 u v
          = oc_graph_get_edge_weight g u v) ∧
    (∀ (g : Graph) (m : AdjMatrix), g.repr = .matrix m → MatrixSymm g m →
      ∀ u v,
        oc_graph_find_edge (oc_graph_convert_to_matrix
            (oc_graph_convert_to_list g).1).1 u v
          = oc_graph_find_edge g u v ∧
        oc_graph_get_edge_weight (oc_graph_convert_to_matrix
            (oc_graph_convert_to_list g).1).1 u v
          = oc_graph_get_edge_weight g u v) := by
  constructor
  · intro g l hre hwf u v
    obtain ⟨n, ne, dir, rep, th⟩ := g
    cases hre
    obtain ⟨h1, h2⟩ := hwf
    obtain ⟨ne2, M2, hconv1, hcap2, hlen2, hvals⟩ :=
      convert_to_matrix_spec ⟨n, ne, dir, .list l, th⟩ l rfl h1
        (fun hdf => mirror_wOfList n l h1 (h2 hdf))
    have hconv1' : oc_graph_convert_to_matrix ⟨n, ne, dir, ReprData.list l, th⟩
        = (⟨n, ne2, dir, ReprData.matrix M2, th⟩, (0 : Int)) := hconv1
    have hvals' : ∀ x y, x < n → y < n → matGet M2 x y = wOfList l x y := hvals
    have hsym2 : (⟨n, ne2, dir, ReprData.matrix M2, th⟩ : Graph).directed = false →
        ∀ i, i < (⟨n, ne2, dir, ReprData.matrix M2, th⟩ : Graph).num_vertices →
        ∀ j, j < (⟨n, ne2, dir, ReprData.matrix M2, th⟩ : Graph).num_vertices →
        matGet M2 i j = matGet M2 j i := by
      intro hdf i hi j hj
      show matGet M2 i j = matGet M2 j i
      rw [hvals' i j hi hj, hvals' j i hj hi]
      exact wOfList_symm n l h1 (h2 hdf) i j hi hj
    obtain ⟨L2, hconv2, hlen3, hvals2, _⟩ :=
      convert_to_list_spec ⟨n, ne2, dir, .matrix M2, th⟩ M2 rfl hsym2
    have hconv2' : oc_graph_convert_to_list ⟨n, ne2, dir, ReprData.matrix M2, th⟩
        = (⟨n, ne2, dir, ReprData.list L2, th⟩, (0 : Int)) := hconv2
    have hvals2' : ∀ x y, x < n → y < n →
        getWeightRec (L2.get x) y
          = if matGet M2 x y = 0 then none else some (matGet M2 x y) := hvals2
    simp only [hconv1', hconv2']
    constructor
    · show (if n ≤ u ∨ n ≤ v then false else findEdgeRec (L2.get u) v)
          = (if n ≤ u ∨ n ≤ v then false else findEdgeRec (l.get u) v)
      by_cases hb : n ≤ u ∨ n ≤ v
      · rw [if_pos hb, if_pos hb]
      · rw [if_neg hb, if_neg hb]
        rw [findEdgeRec_eq_isSome, findEdgeRec_eq_isSome,
          hvals2' u v (by omega) (by omega), hvals' u v (by omega) (by omega),
          getWeightRec_wOfList_ite n l h1 u v (by omega)]
    · show (if n ≤ u ∨ n ≤ v then none else getWeightRec (L2.get u) v)
          = (if n ≤ u ∨ n ≤ v then none else getWeightRec (l.get u) v)
      by_cases hb : n ≤ u ∨ n ≤ v
      · rw [if_pos hb, if_pos hb]
      · rw [if_neg hb, if_neg hb,
          hvals2' u v (by omega) (by omega), hvals' u v (by omega) (by omega),
          getWeightRec_wOfList_ite n l h1 u v (by omega)]
  · intro g m hre hsym u v
    obtain ⟨n, ne, dir, rep, th⟩ := g
    cases hre
    have hsym' : dir = false → ∀ i, i < n → ∀ j, j < n →
        matGet m i j = matGet m j i := hsym
    obtain ⟨L2, hconv1, hlen2, hvals, hmem⟩ :=
      convert_to_list_spec ⟨n, ne, dir, .matrix m, th⟩ m rfl hsym'
    have hconv1' : oc_graph_convert_to_list ⟨n, ne, dir, ReprData.matrix m, th⟩
        = (⟨n, ne, dir, ReprData.list L2, th⟩, (0 : Int)) := hconv1
    have hvals' : ∀ x y, x < n → y < n →
        getWeightRec (L2.get x) y
          = if matGet m x y = 0 then none else some (matGet m x y) := hvals
    have hmem' : ∀ x, x < n → ∀ e ∈ L2.get x,
        e.dst < n ∧ e.weight = matGet m x e.dst ∧ matGet m x e.dst ≠ 0 := hmem
    have hwol : ∀ x y, x < n → y < n → wOfList L2 x y = matGet m x y := by
      intro x y hx hy
      rw [wOfList, hvals' x y hx hy]
      by_cases hz : matGet m x y = 0
      · rw [if_pos hz, hz]
        rfl
      · rw [if_neg hz, Option.getD_some]
    have h1' : ∀ i, i < n → ∀ e ∈ L2.get i,
        e.dst < n ∧ e.weight ≠ 0 ∧ e.weight = wOfList L2 i e.dst := by
      intro i hi e he
      obtain ⟨hdst, hw, hnz⟩ := hmem' i hi e he
      refine ⟨hdst, by rw [hw]; exact hnz, ?_⟩
      rw [hwol i e.dst hi hdst, hw]
    have hmw' : dir = false → ∀ i, i < n → ∀ e ∈ L2.get i,
        wOfList L2 e.dst i = e.weight := by
      intro hdf i hi e he
      obtain ⟨hdst, hw, hnz⟩ := hmem' i hi e he
      rw [hwol e.dst i hdst hi, hsym' hdf e.dst hdst i hi, hw]
    obtain ⟨ne3, M3, hconv2, hcap3, hlen3, hvals3⟩ :=
      convert_to_matrix_spec ⟨n, ne, dir, .list L2, th⟩ L2 rfl h1' hmw'
    have hconv2' : oc_graph_convert_to_matrix ⟨n, ne, dir, ReprData.list L2, th⟩
        = (⟨n, ne3, dir, ReprData.matrix M3, th⟩, (0 : Int)) := hconv2
    have hvals3' : ∀ x y, x < n → y < n → matGet M3 x y = wOfList L2 x y := hvals3
    have hM3 : ∀ x y, x < n → y < n → matGet M3 x y = matGet m x y := by
      intro x y hx hy
      rw [hvals3' x y hx hy, hwol x y hx hy]
    simp only [hconv1', hconv2']
    constructor
    · show (if n ≤ u ∨ n ≤ v then false else decide (matGet M3 u v ≠ 0))
          = (if n ≤ u ∨ n ≤ v then false else decide (matGet m u v ≠ 0))
      by_cases hb : n ≤ u ∨ n ≤ v
      · rw [if_pos hb, if_pos hb]
      · rw [if_neg hb, if_neg hb, hM3 u v (by omega) (by omega)]
    · show (if n ≤ u ∨ n ≤ v then none
            else if matGet M3 u v = 0 then none else some (matGet M3 u v))
          = (if n ≤ u ∨ n ≤ v then none
            else if matGet m u v = 0 then none else some (matGet m u v))
      by_cases hb : n ≤ u ∨ n ≤ v
      · rw [if_pos hb, if_pos hb]
      · rw [if_neg hb, if_neg hb, hM3 u v (by omega) (by omega)]

/-- C4 witness: both round trips evaluated on concrete 3-vertex undirected
graphs, with the hypotheses checked by evaluation. -/
theorem C4_roundtrip_conversion_fidelity_witness :
    (gC4w.repr = .list lC4w ∧ ListReprWF gC4w lC4w ∧
      oc_graph_get_edge_weight (oc_graph_convert_to_list
          (oc_graph_convert_to_matrix gC4w).1).1 0 1
        = oc_graph_get_edge_weight gC4w 0 1) ∧
    (gC4wm.repr = .matrix mC4wm ∧ MatrixSymm gC4wm mC4wm ∧
      oc_graph_get_edge_weight (oc_graph_convert_to_matrix
          (oc_graph_convert_to_list gC4wm).1).1 1 2
        = oc_graph_get_edge_weight gC4wm 1 2) :=
  ⟨⟨rfl, by decide,
    (C4_roundtrip_conversion_fidelity.1 gC4w lC4w rfl (by decide) 0 1).2⟩,
   ⟨rfl, by decide,
    (C4_roundtrip_conversion_fidelity.2 gC4wm mC4wm rfl (by decide) 1 2).2⟩⟩

/-- A duplicate-free list of naturals below `n` has at most `n` elements. -/
theorem nodup_lt_length_le (A : List Nat) (n : Nat) (hnd : A.Nodup)
    (hlt : ∀ x ∈ A, x < n) : A.length ≤ n := by
  have hsub : A.toFinset ⊆ Finset.range n := by
    intro x hx
    rw [Finset.mem_range]
    exact hlt x (List.mem_toFinset.1 hx)
  have hc := Finset.card_le_card hsub
  rw [Finset.card_range] at hc
  rw [← List.toFinset_card_of_nodup hnd]
  exact hc

theorem dfs_fold_spec (g : Graph) (fuel : Nat) (hIH : DfsSpec g fuel) :
    ∀ (ns : List Nat) (u : Nat) (A acc : List Nat),
      u < g.num_vertices →
      u ∉ A →
      (∀ w ∈ ns, adjRel g u w) →
      (∀ w ∈ ns, w < g.num_vertices) →
      (∃ F, acc = (A ++ [u]) ++ F) →
      acc.Nodup →
      (∀ x ∈ acc, x < g.num_vertices) →
      (∀ v ∈ acc, v ∈ A ∨ Relation.ReflTransGen (fun x y => adjRel g x y ∧ y ∉ A) u v) →
      (∀ x ∈ acc, x ∉ A → x ≠ u → ∀ y, adjRel g x y → y ∈ acc) →
      g.num_vertices ≤ fuel + 1 + A.length →
      (∃ F, ns.foldl (fun a v => if v ∈ a then a else dfsRec g fuel v a) acc
          = acc ++ F) ∧
      (ns.foldl (fun a v => if v ∈ a then a else dfsRec g fuel v a) acc).Nodup ∧
      (∀ x ∈ ns.foldl (fun a v => if v ∈ a then a else dfsRec g fuel v a) acc,
        x < g.num_vertices) ∧
      (∀ v ∈ ns.foldl (fun a v => if v ∈ a then a else dfsRec g fuel v a) acc,
        v ∈ A ∨ Relation.ReflTransGen (fun x y => adjRel g x y ∧ y ∉ A) u v) ∧
      (∀ x ∈ ns.foldl (fun a v => if v ∈ a then a else dfsRec g fuel v a) acc,
        x ∉ A → x ≠ u → ∀ y, adjRel g x y → y ∈ ns.foldl
          (fun a v => if v ∈ a then a else dfsRec g fuel v a) acc) ∧
      (∀ w ∈ ns, w ∈ ns.foldl (fun a v => if v ∈ a then a else dfsRec g fuel v a) acc) := by
  intro ns
  induction ns with
  | nil =>
    intro u A acc hu hnA hadj hwlt hpre hnd hb hs hcl hfuel
    simp only [List.foldl_nil]
    refine ⟨⟨[], (List.append_nil acc).symm⟩, hnd, hb, hs, hcl, ?_⟩
    intro w hw
    simp at hw
  | cons w ns ih =>
    intro u A acc hu hnA hadj hwlt hpre hnd hb hs hcl hfuel
    simp only [List.foldl_cons]
    by_cases hw : w ∈ acc
    · rw [if_pos hw]
      obtain ⟨hf1, hf2, hf3, hf4, hf5, hf6⟩ :=
        ih u A acc hu hnA (fun x hx => hadj x (List.mem_cons_of_mem w hx))
          (fun x hx => hwlt x (List.mem_cons_of_mem w hx)) hpre hnd hb hs hcl hfuel
      refine ⟨hf1, hf2, hf3, hf4, hf5, ?_⟩
      intro x hx
      rcases List.mem_cons.1 hx with h | h
      · obtain ⟨F, hF⟩ := hf1
        rw [hF, h]
        exact List.mem_append_left F hw
      · exact hf6 x h
    · rw [if_neg hw]
      have hwn : w < g.num_vertices := hwlt w (List.mem_cons_self w ns)
      have hAsub : ∀ x ∈ A, x ∈ acc := by
        obtain ⟨F, hF⟩ := hpre
        intro x hx
        rw [hF]
        exact List.mem_append_left _ (List.mem_append_left _ hx)
      have hfrec : g.num_vertices ≤ fuel + acc.length := by
        obtain ⟨F, hF⟩ := hpre
        have hl : acc.length = A.length + 1 + F.length := by
          rw [hF]
          simp [List.length_append]
          omega
        omega
      obtain ⟨⟨F2, hpre2⟩, hnd2, hb2, hs2, hcl2⟩ :=
        hIH w acc hwn hw hnd hb hfrec
      have hR2pre : ∃ F, dfsRec g fuel w acc = acc ++ F :=
        ⟨[w] ++ F2, by rw [hpre2, List.append_assoc]⟩
      have hwnA : w ∉ A := fun hc => hw (hAsub w hc)
      have hpre' : ∃ F, dfsRec g fuel w acc = (A ++ [u]) ++ F := by
        obtain ⟨F0, hF0⟩ := hpre
        obtain ⟨F1, hF1⟩ := hR2pre
        exact ⟨F0 ++ F1, by rw [hF1, hF0, List.append_assoc]⟩
      have hs' : ∀ v ∈ dfsRec g fuel w acc, v ∈ A ∨
          Relation.ReflTransGen (fun x y => adjRel g x y ∧ y ∉ A) u v := by
        intro v hv
        rcases hs2 v hv with hvacc | hreach
        · exact hs v hvacc
        · refine Or.inr (Relation.ReflTransGen.head
            ⟨hadj w (List.mem_cons_self w ns), hwnA⟩ ?_)
          exact hreach.mono (fun x y h => ⟨h.1, fun hc => h.2 (hAsub y hc)⟩)
      have hcl' : ∀ x ∈ dfsRec g fuel w acc, x ∉ A → x ≠ u → ∀ y, adjRel g x y →
          y ∈ dfsRec g fuel w acc := by
        intro x hx hxA hxu y hy
        by_cases hxacc : x ∈ acc
        · obtain ⟨F1, hF1⟩ := hR2pre
          rw [hF1]
          exact List.mem_append_left _ (hcl x hxacc hxA hxu y hy)
        · exact hcl2 x hx hxacc y hy
      obtain ⟨hf1, hf2, hf3, hf4, hf5, hf6⟩ :=
        ih u A (dfsRec g fuel w acc) hu hnA
          (fun x hx => hadj x (List.mem_cons_of_mem w hx))
          (fun x hx => hwlt x (List.mem_cons_of_mem w hx))
          hpre' hnd2 hb2 hs' hcl' hfuel
      refine ⟨?_, hf2, hf3, hf4, hf5, ?_⟩
      · obtain ⟨F1, hF1⟩ := hR2pre
        obtain ⟨F3, hF3⟩ := hf1
        exact ⟨F1 ++ F3, by rw [hF3, hF1, List.append_assoc]⟩
      · intro x hx
        rcases List.mem_cons.1 hx with h | h
        · obtain ⟨F3, hF3⟩ := hf1
          rw [hF3, h, hpre2]
          exact List.mem_append_left _ (List.mem_append_left _
            (List.mem_append_right _ (List.mem_singleton_self w)))
        · exact hf6 x h

theorem dfsRec_spec (g : Graph) (htg : TargetsOk g) : ∀ fuel, DfsSpec g fuel := by
  intro fuel
  induction fuel with
  | zero =>
    intro u A hu hnA hndA hAlt hfuel
    exfalso
    have hle := nodup_lt_length_le (u :: A) g.num_vertices
      (List.nodup_cons.2 ⟨hnA, hndA⟩)
      (by
        intro x hx
        rcases List.mem_cons.1 hx with h | h
        · rw [h]; exact hu
        · exact hAlt x h)
    rw [List.length_cons] at hle
    omega
  | succ fuel ih =>
    intro u A hu hnA hndA hAlt hfuel
    have hndinit : (A ++ [u]).Nodup := by
      rw [List.nodup_append]
      refine ⟨hndA, List.nodup_singleton u, ?_⟩
      intro x hx hx2
      rw [List.mem_singleton] at hx2
      rw [hx2] at hx
      exact hnA hx
    obtain ⟨hf1, hf2, hf3, hf4, hf5, hf6⟩ :=
      dfs_fold_spec g fuel ih (neighborsOf g u) u A (A ++ [u]) hu hnA
        (fun w hw => hw)
        (fun w hw => htg u hu w hw)
        ⟨[], (List.append_nil _).symm⟩
        hndinit
        (by
          intro x hx
          rcases List.mem_append.1 hx with h | h
          · exact hAlt x h
          · rw [List.mem_singleton] at h
            rw [h]
            exact hu)
        (by
          intro v hv
          rcases List.mem_append.1 hv with h | h
          · exact Or.inl h
          · rw [List.mem_singleton] at h
            rw [h]
            exact Or.inr Relation.ReflTransGen.refl)
        (by
          intro x hx hxA hxu y hy
          rcases List.mem_append.1 hx with h | h
          · exact absurd h hxA
          · rw [List.mem_singleton] at h
            exact absurd h hxu)
        hfuel
    refine ⟨hf1, hf2, hf3, hf4, ?_⟩
    intro x hx hxA y hy
    by_cases hxu : x = u
    · rw [hxu] at hy
      exact hf6 y hy
    · exact hf5 x hx hxA hxu y hy

/-- The neighbour-marking fold of one BFS iteration appends the same
fresh block `D` to the visited list and the queue. -/
theorem bfsMark_spec : ∀ (ns : List Nat) (vis queue : List Nat),
    ∃ D, ns.foldl (fun p v => if v ∈ p.1 then p else (p.1 ++ [v], p.2 ++ [v]))
        (vis, queue) = (vis ++ D, queue ++ D) ∧
      (∀ w ∈ D, w ∈ ns ∧ w ∉ vis) ∧
      (vis.Nodup → (vis ++ D).Nodup) ∧
      (∀ w ∈ ns, w ∈ vis ++ D) := by
  intro ns
  induction ns with
  | nil =>
    intro vis queue
    refine ⟨[], by simp, by simp, fun h => by simpa using h, by simp⟩
  | cons v ns ih =>
    intro vis queue
    simp only [List.foldl_cons]
    by_cases hv : v ∈ vis
    · rw [if_pos hv]
      obtain ⟨D, hD, hDmem, hDnd, hDcompl⟩ := ih vis queue
      refine ⟨D, hD, ?_, hDnd, ?_⟩
      · intro w hw
        obtain ⟨h1, h2⟩ := hDmem w hw
        exact ⟨List.mem_cons_of_mem v h1, h2⟩
      · intro w hw
        rcases List.mem_cons.1 hw with h | h
        · rw [h]
          exact List.mem_append_left D hv
        · exact hDcompl w h
    · rw [if_neg hv]
      obtain ⟨D, hD, hDmem, hDnd, hDcompl⟩ := ih (vis ++ [v]) (queue ++ [v])
      refine ⟨v :: D, ?_, ?_, ?_, ?_⟩
      · rw [hD, List.append_assoc, List.append_assoc]
        rfl
      · intro w hw
        rcases List.mem_cons.1 hw with h | h
        · rw [h]
          exact ⟨List.mem_cons_self v ns, hv⟩
        · obtain ⟨h1, h2⟩ := hDmem w h
          refine ⟨List.mem_cons_of_mem v h1, ?_⟩
          intro hc
          exact h2 (List.mem_append_left [v] hc)
      · intro hnd
        have hnd1 : (vis ++ [v]).Nodup := by
          rw [List.nodup_append]
          refine ⟨hnd, List.nodup_singleton v, ?_⟩
          intro x hx hx2
          rw [List.mem_singleton] at hx2
          rw [hx2] at hx
          exact hv hx
        have := hDnd hnd1
        rw [List.append_assoc] at this
        exact this
      · intro w hw
        rcases List.mem_cons.1 hw with h | h
        · rw [h]
          exact List.mem_append_right vis (List.mem_cons_self v D)
        · have := hDcompl w h
          rw [List.append_assoc] at this
          exact this

theorem bfsLoop_spec (g : Graph) (start : Nat) (htg : TargetsOk g) :
    ∀ (fuel : Nat) (queue vis order : List Nat),
      vis = order ++ queue →
      vis.Nodup →
      (∀ x ∈ vis, x < g.num_vertices) →
      (∀ v ∈ vis, GraphReach g start v) →
      (∀ x ∈ order, ∀ y, adjRel g x y → y ∈ vis) →
      g.num_vertices ≤ fuel + order.length →
      (bfsLoop g fuel queue vis order).Nodup ∧
      (∀ v ∈ vis, v ∈ bfsLoop g fuel queue vis order) ∧
      (∀ v ∈ bfsLoop g fuel queue vis order, GraphReach g start v) ∧
      (∀ x ∈ bfsLoop g fuel queue vis order, ∀ y, adjRel g x y →
        y ∈ bfsLoop g fuel queue vis order) := by
  intro fuel
  induction fuel with
  | zero =>
    intro queue vis order hveq hnd hb hs hcl hfuel
    have hql : queue = [] := by
      have hlen := nodup_lt_length_le vis g.num_vertices hnd hb
      rw [hveq, List.length_append] at hlen
      have : queue.length = 0 := by omega
      exact List.eq_nil_of_length_eq_zero this
    rw [hql, List.append_nil] at hveq
    show order.Nodup ∧ (∀ v ∈ vis, v ∈ order) ∧ (∀ v ∈ order, GraphReach g start v) ∧
      (∀ x ∈ order, ∀ y, adjRel g x y → y ∈ order)
    rw [← hveq]
    exact ⟨hnd, fun v hv => hv, hs, fun x hx y hy => hveq ▸ hcl x (hveq ▸ hx) y hy⟩
  | succ fuel ih =>
    intro queue vis order hveq hnd hb hs hcl hfuel
    cases queue with
    | nil =>
      rw [List.append_nil] at hveq
      show order.Nodup ∧ (∀ v ∈ vis, v ∈ order) ∧ (∀ v ∈ order, GraphReach g start v) ∧
        (∀ x ∈ order, ∀ y, adjRel g x y → y ∈ order)
      rw [← hveq]
      exact ⟨hnd, fun v hv => hv, hs, fun x hx y hy => hveq ▸ hcl x (hveq ▸ hx) y hy⟩
    | cons u rest =>
      obtain ⟨D, hD, hDmem, hDnd, hDcompl⟩ := bfsMark_spec (neighborsOf g u) vis rest
      have hmark : bfsMark g u vis rest = (vis ++ D, rest ++ D) := hD
      have humem : u ∈ vis := by
        rw [hveq]
        exact List.mem_append_right order (List.mem_cons_self u rest)
      have hult : u < g.num_vertices := hb u humem
      have hveq' : vis ++ D = (order ++ [u]) ++ (rest ++ D) := by
        rw [hveq, List.append_cons order u rest, List.append_assoc (order ++ [u])]
      have hnd' : (vis ++ D).Nodup := hDnd hnd
      have hb' : ∀ x ∈ vis ++ D, x < g.num_vertices := by
        intro x hx
        rcases List.mem_append.1 hx with h | h
        · exact hb x h
        · exact htg u hult x (hDmem x h).1
      have hs' : ∀ v ∈ vis ++ D, GraphReach g start v := by
        intro v hv
        rcases List.mem_append.1 hv with h | h
        · exact hs v h
        · exact Relation.ReflTransGen.tail (hs u humem) (hDmem v h).1
      have hcl' : ∀ x ∈ order ++ [u], ∀ y, adjRel g x y → y ∈ vis ++ D := by
        intro x hx y hy
        rcases List.mem_append.1 hx with h | h
        · exact List.mem_append_left D (hcl x h y hy)
        · rw [List.mem_singleton] at h
          rw [h] at hy
          exact hDcompl y hy
      have hfuel' : g.num_vertices ≤ fuel + (order ++ [u]).length := by
        rw [List.length_append, List.length_singleton]
        omega
      obtain ⟨hf1, hf2, hf3, hf4⟩ :=
        ih (rest ++ D) (vis ++ D) (order ++ [u]) hveq' hnd' hb' hs' hcl' hfuel'
      have hloop : bfsLoop g (fuel + 1) (u :: rest) vis order
          = bfsLoop g fuel (rest ++ D) (vis ++ D) (order ++ [u]) := by
        show bfsLoop g fuel (bfsMark g u vis rest).2 (bfsMark g u vis rest).1
          (order ++ [u]) = _
        rw [hmark]
      rw [hloop]
      exact ⟨hf1, fun v hv => hf2 v (List.mem_append_left D hv), hf3, hf4⟩

/-- C9: confirmed.  With an out-of-bounds start both traversals make no
visitor call (and touch nothing); with a live start each visits every
vertex reachable from `start` along stored edges exactly once and no
other vertex, under either representation (`TargetsOk`: stored targets
are live vertices, which every API-built graph satisfies). -/
theorem C9_traversals_visit_reachable_once (g : Graph) (start : Nat)
    (htg : TargetsOk g) :
    (g.num_vertices ≤ start →
      oc_graph_dfs g start = [] ∧ oc_graph_bfs g start = []) ∧
    (start < g.num_vertices →
      (oc_graph_dfs g start).Nodup ∧
      (∀ v, v ∈ oc_graph_dfs g start ↔ GraphReach g start v) ∧
      (oc_graph_bfs g start).Nodup ∧
      (∀ v, v ∈ oc_graph_bfs g start ↔ GraphReach g start v)) := by
  constructor
  · intro hoob
    constructor
    · rw [oc_graph_dfs, if_pos hoob]
    · rw [oc_graph_bfs, if_pos hoob]
  · intro hstart
    have hnle : ¬ g.num_vertices ≤ start := by omega
    obtain ⟨⟨F, hF⟩, hnd, hb, hs, hcl⟩ :=
      dfsRec_spec g htg g.num_vertices start [] hstart (List.not_mem_nil start)
        List.nodup_nil (by intro x hx; simp at hx) (by simp)
    obtain ⟨hf1, hf2, hf3, hf4⟩ :=
      bfsLoop_spec g start htg g.num_vertices [start] [start] []
        rfl (List.nodup_singleton start)
        (by
          intro x hx
          rw [List.mem_singleton] at hx
          rw [hx]
          exact hstart)
        (by
          intro v hv
          rw [List.mem_singleton] at hv
          rw [hv]
          exact Relation.ReflTransGen.refl)
        (by intro x hx; simp at hx)
        (by simp)
    rw [oc_graph_dfs, if_neg hnle, oc_graph_bfs, if_neg hnle]
    refine ⟨hnd, ?_, hf1, ?_⟩
    · intro v
      constructor
      · intro hv
        rcases hs v hv with h | h
        · simp at h
        · exact h.mono (fun x y hxy => hxy.1)
      · intro hr
        induction hr with
        | refl =>
          rw [hF]
          exact List.mem_append_left F (List.mem_append_right [] (List.mem_singleton_self start))
        | tail hr2 hstep ihm =>
          exact hcl _ ihm (List.not_mem_nil _) _ hstep
    · intro v
      constructor
      · intro hv
        exact hf3 v hv
      · intro hr
        induction hr with
        | refl =>
          exact hf2 start (List.mem_singleton_self start)
        | tail hr2 hstep ihm =>
          exact hf4 _ ihm _ hstep

/-- C9 witness: on the concrete directed graph `gC9w` (edges `0→1`,
`1→2`, `3→0`), both traversals from `0` are duplicate-free, their
characterisation holds at vertex `2` (reachable) and at vertex `3`
(unreachable), and a start of `7` is a no-op. -/
theorem C9_traversals_visit_reachable_once_witness :
    TargetsOk gC9w ∧
    gC9w.num_vertices ≤ 7 ∧ oc_graph_dfs gC9w 7 = [] ∧
    (oc_graph_dfs gC9w 0).Nodup ∧
    (2 ∈ oc_graph_dfs gC9w 0 ↔ GraphReach gC9w 0 2) ∧
    (3 ∈ oc_graph_bfs gC9w 0 ↔ GraphReach gC9w 0 3) :=
  ⟨by decide, by decide,
   (C9_traversals_visit_reachable_once gC9w 7 (by decide)).1 (by decide) |>.1,
   ((C9_traversals_visit_reachable_once gC9w 0 (by decide)).2 (by decide)).1,
   (((C9_traversals_visit_reachable_once gC9w 0 (by decide)).2 (by decide)).2.1) 2,
   (((C9_traversals_visit_reachable_once gC9w 0 (by decide)).2 (by decide)).2.2.2) 3⟩

end OmniC
